import Mathlib

set_option maxRecDepth 100000
set_option maxHeartbeats 2000000
set_option exponentiation.threshold 1100

set_option allowUnsafeReducibility true in
attribute [semireducible] Rat.add Rat.sub Rat.mul Rat.inv Rat.ofScientific

/-!
Shallow embedding of the Bentley-Ottmann sweep-line core of the
`blood-geometry` repository, instantiated at the `f64` back end with exact
rational arithmetic (the scalar trait asks for a totally ordered field with
an approximate-equality predicate; `eps` below is the `f64` machine epsilon
used by the code's `ApproxEq` implementation and by `Real::epsilon()`).
-/

namespace BG

/-- Machine epsilon of the `f64` back end (`f64::EPSILON = 2^-52`), the
tolerance used by `ApproxEq for f64` in `src/lib.rs`. -/
def eps : ℚ := 1 / ((2 ^ 52 : Nat) : ℚ)

/-- `ApproxEq::approx_eq` for scalars (`src/lib.rs`): `(a - b).abs() < EPSILON`. -/
def approxEq (a b : ℚ) : Prop := |a - b| < eps

instance (a b : ℚ) : Decidable (approxEq a b) :=
  inferInstanceAs (Decidable (_ < _))

/-- `Point<T>` from `src/point.rs`. -/
structure Pt where
  x : ℚ
  y : ℚ
  deriving DecidableEq

/-- `Vector<T>` from `src/point.rs`. -/
structure Vec2 where
  x : ℚ
  y : ℚ
  deriving DecidableEq

/-- `Point - Point -> Vector`. -/
def Pt.sub (a b : Pt) : Vec2 := ⟨a.x - b.x, a.y - b.y⟩

/-- `Point + Vector -> Point`. -/
def Pt.addVec (a : Pt) (v : Vec2) : Pt := ⟨a.x + v.x, a.y + v.y⟩

/-- `Point::into_vector`. -/
def Pt.toVec (a : Pt) : Vec2 := ⟨a.x, a.y⟩

/-- `Vector::cross` (`src/point.rs`): `x1*y2 - y1*x2`. -/
def Vec2.cross (a b : Vec2) : ℚ := a.x * b.y - a.y * b.x

/-- Componentwise `Point::approx_eq` (`src/point.rs`). -/
def ptApproxEq (a b : Pt) : Prop := approxEq a.x b.x ∧ approxEq a.y b.y

instance (a b : Pt) : Decidable (ptApproxEq a b) :=
  inferInstanceAs (Decidable (_ ∧ _))

/-- `Line<T>` from `src/line/mod.rs`: origin point plus direction vector. -/
structure Line where
  origin : Pt
  direction : Vec2
  deriving DecidableEq

/-- `Line::between(a, b) = Line::new(a, b - a)`. -/
def Line.between (a b : Pt) : Line := ⟨a, b.sub a⟩

/-- `Line::is_horizontal`: `direction.y ≈ 0`. -/
def Line.isHorizontal (l : Line) : Prop := approxEq l.direction.y 0

/-- `Line::is_vertical`: `direction.x ≈ 0`. -/
def Line.isVertical (l : Line) : Prop := approxEq l.direction.x 0

instance (l : Line) : Decidable l.isHorizontal :=
  inferInstanceAs (Decidable (approxEq _ _))

instance (l : Line) : Decidable l.isVertical :=
  inferInstanceAs (Decidable (approxEq _ _))

/-- `Line::intersects`: the directions' cross product is not approximately
zero (`!cross.abs().approx_eq(&zero)`). -/
def Line.intersects (a b : Line) : Prop :=
  ¬ approxEq |a.direction.cross b.direction| 0

instance (a b : Line) : Decidable (a.intersects b) :=
  inferInstanceAs (Decidable (¬ _))

/-- `Line::intersection` (`src/line/mod.rs` lines 128-151): computes the
determinant `self.direction × line.direction`, returns `None` when
`det <= T::epsilon()`, and otherwise the cramer-style intersection point. -/
def Line.intersection (a b : Line) : Option Pt :=
  let det := a.direction.cross b.direction
  if det ≤ eps then none
  else
    let selfP2 := a.origin.addVec a.direction
    let otherP2 := b.origin.addVec b.direction
    let ca := a.origin.toVec.cross selfP2.toVec
    let cb := b.origin.toVec.cross otherP2.toVec
    some ⟨(ca * b.direction.x - cb * a.direction.x) / det,
          (ca * b.direction.y - cb * a.direction.y) / det⟩

/-- `Line::point_at_y` (`src/line/mod.rs` lines 207-218): `None` when
`direction.y ≈ 0`, otherwise the point on the line with the given Y. -/
def Line.pointAtY (l : Line) (y : ℚ) : Option Pt :=
  if approxEq l.direction.y 0 then none
  else some ⟨(y - l.origin.y) * l.direction.x / l.direction.y + l.origin.x, y⟩

/-- `Line::distance(p) < EPSILON`, i.e. `distance(p).approx_eq(&zero)`, the
form in which `Line::distance` is consumed by `BoEdge::colinear`.  The source
computes `(cross / direction.length()).abs()` with `length = sqrt(x²+y²)`;
since square roots leave ℚ we state the equivalent squared inequality
`cross² < eps² * (x²+y²)`, which agrees with `|cross|/√(x²+y²) < eps` for
every nonzero direction and is likewise false for the zero direction. -/
def Line.distApproxZero (l : Line) (p : Pt) : Prop :=
  ((p.sub l.origin).cross l.direction) ^ 2 <
    eps ^ 2 * (l.direction.x ^ 2 + l.direction.y ^ 2)

instance (l : Line) (p : Pt) : Decidable (l.distApproxZero p) :=
  inferInstanceAs (Decidable (_ < _))

/-- `LineSegment<T>`: two endpoints (`from`/`to`; renamed since both are Lean keywords). -/
structure LineSeg where
  fr : Pt
  toP : Pt
  deriving DecidableEq

/-- `LineSegment::line`: `Line::new(from, to - from)`. -/
def LineSeg.line (s : LineSeg) : Line := Line.between s.fr s.toP

/-- `NhLineSegment<T>`: a line plus the two Y bounds. -/
structure NhSeg where
  line : Line
  top : ℚ
  bottom : ℚ
  deriving DecidableEq

/-- The `order` helper at the bottom of `src/line/mod.rs`. -/
def order2 (a b : ℚ) : ℚ × ℚ := if a < b then (a, b) else (b, a)

/-- `NhLineSegment::new(p1, p2)` / `TryFrom<LineSegment>`: `None` when the
connecting line is horizontal, otherwise the Y-ordered bounds. -/
def LineSeg.toNh (s : LineSeg) : Option NhSeg :=
  let line := Line.between s.fr s.toP
  if line.isHorizontal then none
  else some ⟨line, (order2 s.fr.y s.toP.y).1, (order2 s.fr.y s.toP.y).2⟩

/-- `NhLineSegment::intersection` (`src/line/mod.rs` lines 427-444): the
underlying lines' intersection filtered by the segment Y-bound check exactly
as written in the source (`self.top >= y && self.bottom <= y && ...`). -/
def NhSeg.intersection (s t : NhSeg) : Option Pt :=
  (s.line.intersection t.line).bind fun p =>
    if s.top ≥ p.y ∧ s.bottom ≤ p.y ∧ t.top ≥ p.y ∧ t.bottom ≤ p.y then
      some p
    else
      none

/-- `x_for_y` (`src/bentley_ottman/algorithm/edge.rs` lines 355-357) before
the panicking unwrap: `line.point_at_y(y)` projected to X.  `none` marks the
`expect("horizontal line")` panic. -/
def xForY (l : Line) (y : ℚ) : Option ℚ := (l.pointAtY y).map Pt.x

/-- Totalized `x_for_y`; the `0` default stands for the "horizontal line"
panic and is proved unreachable on arena edges (claim C10). -/
def xForYD (l : Line) (y : ℚ) : ℚ := (xForY l y).getD 0

/-- `From<NhLineSegment> for LineSegment`: both endpoints via
`point_at_y(top)/point_at_y(bottom)` with panicking unwraps, totalized with a
default that is unreachable for non-horizontal segments. -/
def NhSeg.toSeg (s : NhSeg) : LineSeg :=
  ⟨(s.line.pointAtY s.top).getD ⟨0, s.top⟩,
   (s.line.pointAtY s.bottom).getD ⟨0, s.bottom⟩⟩

/-! ## Edge arena (`src/bentley_ottman/algorithm/edge.rs`)

The immutable part of a `BoEdge` (segment, cached endpoints, id); the
interior-mutable `prev`/`next`/`trapezoid` cells live in a separate `Cell`
array indexed by the same 1-based ids, mirroring the `Cell`/`RefCell` fields
of the Rust arena.  Id `0` encodes "absent"/invalid (the Rust side uses
`NonZeroUsize`). -/

/-- Immutable data of `BoEdge`. -/
structure BoEdge where
  seg : NhSeg
  lowestY : Pt
  highestY : Pt
  id : Nat
  deriving DecidableEq

/-- `BoEdge::from_edge`: caches the endpoints via `x_for_y` at the Y bounds. -/
def BoEdge.fromEdge (seg : NhSeg) (id : Nat) : BoEdge :=
  ⟨seg, ⟨xForYD seg.line seg.top, seg.top⟩,
        ⟨xForYD seg.line seg.bottom, seg.bottom⟩, id⟩

/-- `BoEdge::colinear`: both of the other line's reference points are at
approximately zero distance from this edge's line. -/
def BoEdge.colinear (e f : BoEdge) : Prop :=
  e.seg.line.distApproxZero f.seg.line.origin ∧
    e.seg.line.distApproxZero (f.seg.line.origin.addVec f.seg.line.direction)

instance (e f : BoEdge) : Decidable (e.colinear f) :=
  inferInstanceAs (Decidable (_ ∧ _))

/-- `BoEdge::x_at_y`. -/
def BoEdge.xAtY (e : BoEdge) (y : ℚ) : ℚ := xForYD e.seg.line y

/-- Out-of-range arena accesses model the `expect("index out of bounds")`
panic with this placeholder (never reached on ids the algorithm produces). -/
def junkEdge : BoEdge := BoEdge.fromEdge ⟨⟨⟨0, 0⟩, ⟨0, 1⟩⟩, 0, 1⟩ 0

/-- `Edges::get`, totalized over `Nat` ids. -/
def getEdge (edges : List BoEdge) (id : Nat) : BoEdge :=
  if id = 0 then junkEdge else edges.getD (id - 1) junkEdge

/-- `PartialTrapezoid`: recorded right edge id plus top Y. -/
structure PartialTrap where
  rightEdge : Nat
  top : ℚ
  deriving DecidableEq

/-- `Trapezoid` (`src/trapezoid.rs`). -/
structure Trap where
  top : ℚ
  bottom : ℚ
  left : Line
  right : Line
  deriving DecidableEq

/-- `PartialTrapezoid::complete`: `None` when `bottom < top`, otherwise the
trapezoid between the left and recorded right edges' lines. -/
def PartialTrap.complete (pt : PartialTrap) (leftEdge : Nat) (bottom : ℚ)
    (edges : List BoEdge) : Option Trap :=
  if bottom < pt.top then none
  else some ⟨pt.top, bottom, (getEdge edges leftEdge).seg.line,
             (getEdge edges pt.rightEdge).seg.line⟩

/-! ## Events (`src/bentley_ottman/mod.rs`) -/

/-- `EventType`. -/
inductive EventType where
  | start : EventType
  | stop : EventType
  | inter (otherEdge : LineSeg) : EventType
  deriving DecidableEq

/-- `Event`. -/
structure Event where
  edge : LineSeg
  eventType : EventType
  point : Pt
  edgeId : Nat
  deriving DecidableEq

/-- `BoEdge::start_event`. -/
def BoEdge.startEvent (e : BoEdge) : Event :=
  ⟨e.seg.toSeg, .start, e.lowestY, e.id⟩

/-- `BoEdge::stop_event`. -/
def BoEdge.stopEvent (e : BoEdge) : Event :=
  ⟨e.seg.toSeg, .stop, e.highestY, e.id⟩

/-- `BoEdge::intersection_event` (the method on `BoEdge`, without the
reversed-pair / spurious filtering done by the free function). -/
def BoEdge.intersectionEventRaw (e other : BoEdge) : Option Event :=
  (e.seg.intersection other.seg).map fun p =>
    ⟨e.seg.toSeg, .inter other.seg.toSeg, p, e.id⟩

/-! ## Interior-mutable cells and the intrusive linked list
(`src/bentley_ottman/algorithm/linked_list.rs`) -/

/-- The three interior-mutable cells of one arena slot. -/
structure Cell where
  prev : Option Nat
  next : Option Nat
  trap : Option PartialTrap
  deriving DecidableEq

instance : Inhabited Cell := ⟨⟨none, none, none⟩⟩

/-- Read a slot's cells; id 0 and out-of-range ids yield the default cell. -/
def getCell (cells : List Cell) (id : Nat) : Cell :=
  if id = 0 then default else cells.getD (id - 1) default

/-- Update a slot's cells (no-op on invalid ids, which never occur). -/
def setCellF (cells : List Cell) (id : Nat) (f : Cell → Cell) : List Cell :=
  if id = 0 then cells else cells.set (id - 1) (f (getCell cells id))

/-- `BoEdge::set_prev`. -/
def setPrevC (cells : List Cell) (id : Nat) (v : Option Nat) : List Cell :=
  setCellF cells id fun c => { c with prev := v }

/-- `BoEdge::set_next`. -/
def setNextC (cells : List Cell) (id : Nat) (v : Option Nat) : List Cell :=
  setCellF cells id fun c => { c with next := v }

/-- Writing the `trapezoid` cell. -/
def setTrapC (cells : List Cell) (id : Nat) (v : Option PartialTrap) :
    List Cell :=
  setCellF cells id fun c => { c with trap := v }

/-- A linked list over the shared cells: a root id plus the cell array
(the Rust `LinkedList` stores only the root; the cells live in the arena). -/
structure LL where
  root : Option Nat
  cells : List Cell
  deriving DecidableEq

/-- `LinkedList::iter`, fuel-bounded: the id chain from `cur` along `next`
pointers.  On well-formed lists a fuel of `cells.length + 1` is exhaustive. -/
def chainAux (cells : List Cell) : Nat → Option Nat → List Nat
  | 0, _ => []
  | _, none => []
  | fuel + 1, some id => id :: chainAux cells fuel (getCell cells id).next

/-- The full id chain of a list. -/
def LL.chain (s : LL) : List Nat := chainAux s.cells (s.cells.length + 1) s.root

/-- `LinkedList::push`: append at the tail (walking to the last node). -/
def LL.push (s : LL) (id : Nat) : LL :=
  match s.root with
  | none => ⟨some id, setNextC (setPrevC s.cells id none) id none⟩
  | some r =>
      let last := (chainAux s.cells (s.cells.length + 1) (some r)).getLast?.getD r
      let cells := setPrevC (setNextC s.cells last (some id)) id (some last)
      ⟨s.root, setNextC cells id none⟩

/-- `LinkedList::insert`: splice before the first node for which `before`
answers true, or push at the tail when there is none. -/
def LL.insertBy (s : LL) (id : Nat) (before : Nat → Bool) : LL :=
  match s.chain.find? before with
  | none => s.push id
  | some nodeId =>
      let prev := (getCell s.cells nodeId).prev
      let root' := match prev with
        | some _ => s.root
        | none => some id
      let cells₁ := match prev with
        | some p => setNextC s.cells p (some id)
        | none => s.cells
      let cells₂ := setNextC (setPrevC cells₁ id prev) id (some nodeId)
      ⟨root', setPrevC cells₂ nodeId (some id)⟩

/-- `LinkedList::remove`. -/
def LL.remove (s : LL) (id : Nat) : LL :=
  let prev := (getCell s.cells id).prev
  let next := (getCell s.cells id).next
  let root' := match prev with
    | some _ => s.root
    | none => next
  let cells₁ := match prev with
    | some p => setNextC s.cells p next
    | none => s.cells
  let cells₂ := match next with
    | some n => setPrevC cells₁ n prev
    | none => cells₁
  ⟨root', setPrevC (setNextC cells₂ id none) id none⟩

/-- `if let Some(p) = target { p.set_next(v) }`: the conditional neighbor
update used by `LinkedList::swap`. -/
def setNextOpt (cells : List Cell) (target : Option Nat) (v : Option Nat) :
    List Cell :=
  match target with
  | some p => setNextC cells p v
  | none => cells

/-- `if let Some(p) = target { p.set_prev(v) }`. -/
def setPrevOpt (cells : List Cell) (target : Option Nat) (v : Option Nat) :
    List Cell :=
  match target with
  | some p => setPrevC cells p v
  | none => cells

/-- `LinkedList::swap`: exchange a node with its successor; when there is no
successor the source logs an error and returns with nothing modified. -/
def LL.swap (s : LL) (id : Nat) : LL :=
  match (getCell s.cells id).next with
  | none => s
  | some next =>
      let prev := (getCell s.cells id).prev
      let nextNext := (getCell s.cells next).next
      let root' := match prev with
        | some _ => s.root
        | none => some next
      let cells₁ := setNextOpt s.cells prev (some next)
      let cells₂ := setPrevOpt cells₁ nextNext (some id)
      let cells₃ := setPrevC (setNextC cells₂ id nextNext) id (some next)
      ⟨root', setNextC (setPrevC cells₃ next prev) next (some id)⟩

/-- `LinkedList::pairs`: adjacent disjoint pairs, dropping a final singleton. -/
def pairsOf : List Nat → List (Nat × Nat)
  | a :: b :: rest => (a, b) :: pairsOf rest
  | _ => []

/-! ## Priority queue (`src/bentley_ottman/algorithm/priority_queue.rs`)

The `BinaryHeap<Reverse<EventOrder>>` is modelled as a bag of events from
which `pop` extracts an element minimal for the `EventOrder` ordering
(point Y, then point X); ties are broken by first occurrence, a legitimate
refinement of the heap's unspecified tie order. -/

/-- The (total, exact) `EventOrder` comparison: by `point.y`, then `point.x`. -/
def ptLexLe (a b : Pt) : Prop := a.y < b.y ∨ (a.y = b.y ∧ a.x ≤ b.x)

instance (a b : Pt) : Decidable (ptLexLe a b) :=
  inferInstanceAs (Decidable (_ ∨ _))

/-- `PriorityQueue::pop`: extract a minimal event. -/
def popMin : List Event → Option (Event × List Event)
  | [] => none
  | e :: rest =>
      match popMin rest with
      | none => some (e, [])
      | some (m, rest') =>
          if ptLexLe e.point m.point then some (e, rest)
          else some (m, e :: rest')

/-! ## The algorithm driver (`src/bentley_ottman/algorithm/mod.rs` and
`sweep_line.rs`)

One flat state carries the arena, the shared cells, the queue, the sweep
line (current Y, active root, leftover root) and the `Trapezoids` variant
data (`trapezoids` buffer, `fused_leftovers`, `fill_rule`); `useTraps`
selects between the `NoTrapezoids` and `Trapezoids` impls of `Variant`. -/

/-- `FillRule` (`src/lib.rs`). -/
inductive FillRule where
  | winding : FillRule
  | evenOdd : FillRule
  deriving DecidableEq

/-- `SweepLine::default()` initializes `current_y` to `Num::min_value()`,
which for `f64` is `-f64::MAX = -(2 - 2^-52)·2^1023 = -(2^1024 - 2^971)`. -/
def minValue : ℚ := -(((2 ^ 1024 - 2 ^ 971 : Nat)) : ℚ)

/-- The whole `Algorithm` state. -/
structure AlgState where
  edges : List BoEdge
  cells : List Cell
  queue : List Event
  currentY : ℚ
  activeRoot : Option Nat
  leftoverRoot : Option Nat
  useTraps : Bool
  fillRule : FillRule
  trapBuf : List Trap
  fusedLeftovers : Bool
  deriving DecidableEq

/-- `approx_cmp` (`sweep_line.rs`): approximate equality collapses to
`Equal`, else the exact order.  (On ℚ the `partial_cmp` is total, so the
`Option` layer of the source is always `Some` and is dropped.) -/
def approxCmp (a b : ℚ) : Ordering :=
  if approxEq a b then .eq else if a < b then .lt else .gt

/-- The `Partial::or_else` chaining: continue only on `Equal`. -/
def chainCmp (o : Ordering) (f : Unit → Ordering) : Ordering :=
  match o with
  | .eq => f ()
  | o => o

/-- `SweepLine::compare_edges`: X at the current Y, then the start point's
X, then the end point's X, each compared approximately. -/
def compareEdges (y : ℚ) (a b : BoEdge) : Ordering :=
  chainCmp (approxCmp (a.xAtY y) (b.xAtY y)) fun _ =>
    chainCmp (approxCmp a.lowestY.x b.lowestY.x) fun _ =>
      approxCmp a.highestY.x b.highestY.x

/-- The active list viewed as a linked list. -/
def AlgState.activeLL (s : AlgState) : LL := ⟨s.activeRoot, s.cells⟩

/-- The leftover list viewed as a linked list. -/
def AlgState.leftoverLL (s : AlgState) : LL := ⟨s.leftoverRoot, s.cells⟩

/-- `SweepLine::add_edge`: sorted insert into the active list, before the
first element comparing `Less` or `Equal`. -/
def AlgState.addEdge (s : AlgState) (id : Nat) : AlgState :=
  let e := getEdge s.edges id
  let ll := s.activeLL.insertBy id fun nid =>
    match compareEdges s.currentY e (getEdge s.edges nid) with
    | .gt => false
    | _ => true
  { s with activeRoot := ll.root, cells := ll.cells }

/-- `SweepLine::remove_edge`: unlink from the active list and, when the edge
still holds a partial trapezoid, push it onto the leftover list. -/
def AlgState.removeEdge (s : AlgState) (id : Nat) : AlgState :=
  let ll := s.activeLL.remove id
  let s₁ := { s with activeRoot := ll.root, cells := ll.cells }
  if (getCell s₁.cells id).trap.isSome then
    let l₂ := s₁.leftoverLL.push id
    { s₁ with leftoverRoot := l₂.root, cells := l₂.cells }
  else s₁

/-- `SweepLine::swap_edge`. -/
def AlgState.swapEdge (s : AlgState) (id : Nat) : AlgState :=
  let ll := s.activeLL.swap id
  { s with activeRoot := ll.root, cells := ll.cells }

/-- `BoEdge::complete_trapezoid`: take the pending partial out of the cell
and complete it at the given bottom. -/
def completeTrapC (cells : List Cell) (edges : List BoEdge) (id : Nat)
    (bottom : ℚ) : List Cell × Option Trap :=
  match (getCell cells id).trap with
  | none => (cells, none)
  | some pt => (setTrapC cells id none, pt.complete id bottom edges)

/-- `BoEdge::start_trapezoid`: create, keep, extend or complete-and-restart
the left edge's partial trapezoid against right neighbor `r`. -/
def startTrapC (cells : List Cell) (edges : List BoEdge) (l r : Nat)
    (top : ℚ) : List Cell × Option Trap :=
  match (getCell cells l).trap with
  | none => (setTrapC cells l (some ⟨r, top⟩), none)
  | some pt =>
      if pt.rightEdge = r then (cells, none)
      else if (getEdge edges pt.rightEdge).colinear (getEdge edges r) then
        (setTrapC cells l (some ⟨r, pt.top⟩), none)
      else
        (setTrapC cells l (some ⟨r, top⟩), pt.complete l top edges)

/-- Completing the pending trapezoids of a list of leftover edges at their
own segment bottoms, extending the trapezoid buffer
(`take_leftovers(..).filter_map(|e| e.complete_trapezoid(e.edge().bottom(), ..))`). -/
def drainLeftoverIds : AlgState → List Nat → AlgState
  | s, [] => s
  | s, id :: rest =>
      let r := completeTrapC s.cells s.edges id (getEdge s.edges id).seg.bottom
      drainLeftoverIds { s with cells := r.1, trapBuf := s.trapBuf ++ r.2.toList }
        rest

/-- `SweepLine::trapezoids`: run `start_trapezoid` over the adjacent pairs
of the active list, buffering completed trapezoids.  (The `fill_rule`
argument is accepted and ignored, as in the source.) -/
def sweepTrapsFold : AlgState → List (Nat × Nat) → AlgState
  | s, [] => s
  | s, pr :: rest =>
      let r := startTrapC s.cells s.edges pr.1 pr.2 s.currentY
      sweepTrapsFold { s with cells := r.1, trapBuf := s.trapBuf ++ r.2.toList }
        rest

/-- `Trapezoids::increment_y` (a no-op for `NoTrapezoids`): when the new Y
approximately equals the current sweep Y, drain the leftovers and then the
active-pair trapezoids into the buffer. -/
def AlgState.incrementY (s : AlgState) (newY : ℚ) : AlgState :=
  if s.useTraps then
    if approxEq s.currentY newY then
      let lids := s.leftoverLL.chain
      let s₁ := drainLeftoverIds { s with leftoverRoot := none } lids
      sweepTrapsFold s₁ (pairsOf s₁.activeLL.chain)
    else s
  else s

/-- The free function `intersection_event(e1, e2)`: `None` when `e2`'s top
point does not lie strictly right of `e1`'s, otherwise the raw intersection
event filtered for spurious shared-endpoint intersections. -/
def intersectionEvent (e1 e2 : BoEdge) : Option Event :=
  if e2.lowestY.x ≤ e1.lowestY.x then none
  else
    (e1.intersectionEventRaw e2).filter fun ev =>
      let e1l := e1.lowestY
      let e1h := e1.highestY
      let e2l := e2.lowestY
      let e2h := e2.highestY
      if decide (ptApproxEq e1l e2l) || decide (ptApproxEq e1l e2h) then
        decide (ptApproxEq e1l ev.point)
      else if decide (ptApproxEq e1h e2h) || decide (ptApproxEq e1h e2l) then
        decide (ptApproxEq e1h ev.point)
      else true

/-- `Trapezoids::handle_start_event` (a no-op for `NoTrapezoids`): transfer
the partial trapezoid of the first fusable leftover onto the starting edge
and drop that leftover from the leftover list. -/
def AlgState.fuseLeftovers (s : AlgState) (eid : Nat) : AlgState :=
  if s.useTraps then
    let e := getEdge s.edges eid
    match s.leftoverLL.chain.find? (fun lid =>
        decide (e.seg.top ≤ (getEdge s.edges lid).seg.bottom) &&
          decide (e.colinear (getEdge s.edges lid))) with
    | none => s
    | some lid =>
        let tv := (getCell s.cells lid).trap
        let cells₁ := setTrapC s.cells lid none
        let cells₂ := setTrapC cells₁ eid tv
        let ll := LL.remove ⟨s.leftoverRoot, cells₂⟩ lid
        { s with cells := ll.cells, leftoverRoot := ll.root }
  else s

/-- `Algorithm::handle_start_event`. -/
def AlgState.handleStartEvent (s : AlgState) (ev : Event) : AlgState :=
  let s₁ := s.addEdge ev.edgeId
  let e := getEdge s₁.edges ev.edgeId
  let s₂ := { s₁ with queue := s₁.queue ++ [e.stopEvent] }
  let s₃ := s₂.fuseLeftovers ev.edgeId
  let pEv := (getCell s₃.cells ev.edgeId).prev.bind fun pid =>
    intersectionEvent (getEdge s₃.edges pid) e
  let nEv := (getCell s₃.cells ev.edgeId).next.bind fun nid =>
    intersectionEvent (getEdge s₃.edges nid) e
  { s₃ with queue := s₃.queue ++ pEv.toList ++ nEv.toList }

/-- `Algorithm::handle_stop_event`. -/
def AlgState.handleStopEvent (s : AlgState) (ev : Event) : AlgState :=
  let prv := (getCell s.cells ev.edgeId).prev
  let nxt := (getCell s.cells ev.edgeId).next
  let s₁ := s.removeEdge ev.edgeId
  match prv, nxt with
  | some p, some n =>
      { s₁ with queue := s₁.queue ++
          (intersectionEvent (getEdge s₁.edges p) (getEdge s₁.edges n)).toList }
  | _, _ => s₁

/-- `Algorithm::handle_intersection_event`. -/
def AlgState.handleIntersectionEvent (s : AlgState) (ev : Event) : AlgState :=
  let s₁ := s.swapEdge ev.edgeId
  match (getCell s₁.cells ev.edgeId).prev with
  | none => s₁
  | some oid =>
      let other := getEdge s₁.edges oid
      let pEv := (getCell s₁.cells oid).prev.bind fun pid =>
        intersectionEvent (getEdge s₁.edges pid) other
      let nEv := (getCell s₁.cells oid).next.bind fun nid =>
        intersectionEvent other (getEdge s₁.edges nid)
      { s₁ with queue := s₁.queue ++ pEv.toList ++ nEv.toList }

/-- The spurious-on-pop test in `Algorithm::next_event`: an intersection
event whose point approximately equals one of its edge's endpoints. -/
def spuriousPop (edges : List BoEdge) (ev : Event) : Bool :=
  match ev.eventType with
  | .inter _ =>
      decide (ptApproxEq ev.point (getEdge edges ev.edgeId).lowestY) ||
        decide (ptApproxEq ev.point (getEdge edges ev.edgeId).highestY)
  | _ => false

/-- The pop-discarding loop at the top of `Algorithm::next_event`; the fuel
(instantiated with the queue length) bounds the number of discards. -/
def popLoop (edges : List BoEdge) : Nat → List Event → Option (Event × List Event)
  | 0, _ => none
  | fuel + 1, q =>
      match popMin q with
      | none => none
      | some (ev, rest) =>
          if spuriousPop edges ev then popLoop edges fuel rest
          else some (ev, rest)

/-- `Algorithm::next_event`: pop a non-spurious event, run the variant's
`increment_y`, advance the sweep Y, and dispatch on the event type. -/
def nextEvent (s : AlgState) : Option (Event × AlgState) :=
  match popLoop s.edges s.queue.length s.queue with
  | none => none
  | some (ev, rest) =>
      let s₁ := { s with queue := rest }
      let s₂ := s₁.incrementY ev.point.y
      let s₃ := { s₂ with currentY := ev.point.y }
      let s₄ :=
        match ev.eventType with
        | .start => s₃.handleStartEvent ev
        | .stop => s₃.handleStopEvent ev
        | .inter _ => s₃.handleIntersectionEvent ev
      some (ev, s₄)

/-- The final leftover pass of `Algorithm::next_trapezoid` once the event
queue is exhausted (guarded by `fused_leftovers`). -/
def AlgState.fusedDrain (s : AlgState) : AlgState :=
  let lids := s.leftoverLL.chain
  drainLeftoverIds { s with leftoverRoot := none, fusedLeftovers := true } lids

/-- `Algorithm::next_trapezoid`: pop from the trapezoid buffer (a `Vec`, so
from the back), refilling it by driving `next_event` and, at exhaustion,
the one-shot leftover drain.  Fuel bounds the number of loop iterations. -/
def nextTrapezoid : Nat → AlgState → Option (Trap × AlgState)
  | 0, _ => none
  | fuel + 1, s =>
      match s.trapBuf.getLast? with
      | some t => some (t, { s with trapBuf := s.trapBuf.dropLast })
      | none =>
          match nextEvent s with
          | some (_, s') => nextTrapezoid fuel s'
          | none =>
              if s.fusedLeftovers then none
              else nextTrapezoid fuel s.fusedDrain

/-! ## Entry points (`src/bentley_ottman/mod.rs`) -/

/-- The ingest phase of `Algorithm::new`: filter out horizontal segments,
then assign 1-based ids. -/
def mkEdges (segs : List LineSeg) : List BoEdge :=
  (segs.filterMap LineSeg.toNh).enum.map fun p => BoEdge.fromEdge p.2 (p.1 + 1)

/-- `Algorithm::new`: build the arena and seed the queue with every edge's
start event. -/
def algorithmNew (segs : List LineSeg) (useTraps : Bool) (fr : FillRule) :
    AlgState :=
  let edges := mkEdges segs
  { edges := edges
    cells := List.replicate edges.length default
    queue := edges.map BoEdge.startEvent
    currentY := minValue
    activeRoot := none
    leftoverRoot := none
    useTraps := useTraps
    fillRule := fr
    trapBuf := []
    fusedLeftovers := false }

/-- The stream of events produced by successive `next_event` calls. -/
def runEvents : Nat → AlgState → List Event
  | 0, _ => []
  | fuel + 1, s =>
      match nextEvent s with
      | none => []
      | some (ev, s') => ev :: runEvents fuel s'

/-- The stream of trapezoids produced by successive `next_trapezoid` calls. -/
def runTraps : Nat → AlgState → List Trap
  | 0, _ => []
  | fuel + 1, s =>
      match nextTrapezoid (fuel + 1) s with
      | none => []
      | some (t, s') => t :: runTraps fuel s'

/-- The `bentley_ottmann` entry point: events filtered down to the points of
intersection events. -/
def intersectionsOut (fuel : Nat) (segs : List LineSeg) : List Pt :=
  (runEvents fuel (algorithmNew segs false .winding)).filterMap fun ev =>
    match ev.eventType with
    | .inter _ => some ev.point
    | _ => none

/-- The `trapezoids` entry point. -/
def trapezoidsOut (fuel : Nat) (segs : List LineSeg) (fr : FillRule) :
    List Trap :=
  runTraps fuel (algorithmNew segs true fr)

/-! ## Specification-side predicates and descriptions -/

/-- The properties of one arena edge that the construction in
`Algorithm::new` guarantees: strictly ordered Y bounds, cached endpoints at
those bounds, and a non-horizontal line. -/
def edgeWF (e : BoEdge) : Prop :=
  e.seg.top < e.seg.bottom ∧ e.lowestY.y = e.seg.top ∧
    e.highestY.y = e.seg.bottom ∧ ¬ e.seg.line.isHorizontal

instance (e : BoEdge) : Decidable (edgeWF e) :=
  inferInstanceAs (Decidable (_ ∧ _))

/-- Every arena edge is well formed. -/
def EdgesWF (edges : List BoEdge) : Prop := ∀ e ∈ edges, edgeWF e

instance (edges : List BoEdge) : Decidable (EdgesWF edges) :=
  List.decidableBAll _ edges

/-- Queue sanity: every `Start` event in the queue sits at the top Y of its
edge (true of the seeded start events; no later push adds a start event). -/
def QueueStartWF (edges : List BoEdge) (q : List Event) : Prop :=
  ∀ ev ∈ q, ev.eventType = .start →
    ev.point.y = (getEdge edges ev.edgeId).seg.top

/-- The trapezoid invariant of claim C5: non-inverted Y bounds and
non-horizontal bounding lines. -/
def goodTrap (t : Trap) : Prop :=
  t.top ≤ t.bottom ∧ ¬ t.left.isHorizontal ∧ ¬ t.right.isHorizontal

instance (t : Trap) : Decidable (goodTrap t) :=
  inferInstanceAs (Decidable (_ ∧ _))

/-- `start_trapezoid` as the specification describes it (claim C4), with the
completion step written out: no partial installs `{right_edge = R, top_y =
current_y}`; an identical right edge changes nothing; a colinear right edge
is replaced keeping `top_y`; otherwise the old partial completes at
`bottom_y = current_y` (dropped when `bottom < top`) and a fresh partial is
installed. -/
def startTrapSpec (cells : List Cell) (edges : List BoEdge) (l r : Nat)
    (currentY : ℚ) : List Cell × Option Trap :=
  match (getCell cells l).trap with
  | none => (setTrapC cells l (some ⟨r, currentY⟩), none)
  | some pt =>
      if pt.rightEdge = r then (cells, none)
      else if (getEdge edges pt.rightEdge).colinear (getEdge edges r) then
        (setTrapC cells l (some ⟨r, pt.top⟩), none)
      else
        (setTrapC cells l (some ⟨r, currentY⟩),
         if currentY < pt.top then none
         else some ⟨pt.top, currentY, (getEdge edges l).seg.line,
                    (getEdge edges pt.rightEdge).seg.line⟩)

/-- A 1-based id is a valid arena slot. -/
def validId (cells : List Cell) (id : Nat) : Prop := 1 ≤ id ∧ id ≤ cells.length

instance (cells : List Cell) (id : Nat) : Decidable (validId cells id) :=
  inferInstanceAs (Decidable (_ ∧ _))

/-- The cells realize `l` as a doubly linked chain whose `prev` pointers
track the predecessor (`pr` for the head) and whose `next` pointers track
the successor (`none` for the last element). -/
def wfChain (cells : List Cell) : Option Nat → List Nat → Prop
  | _, [] => True
  | pr, x :: rest =>
      validId cells x ∧ (getCell cells x).prev = pr ∧
        (getCell cells x).next = rest.head? ∧ wfChain cells (some x) rest

instance wfChainDec (cells : List Cell) :
    (pr : Option Nat) → (l : List Nat) → Decidable (wfChain cells pr l)
  | _, [] => .isTrue trivial
  | _, x :: rest =>
      have : Decidable (wfChain cells (some x) rest) := wfChainDec cells _ rest
      inferInstanceAs (Decidable (_ ∧ _))

/-- The linked list `s` is exactly the well-formed doubly linked list with
member sequence `l`. -/
def representsLL (s : LL) (l : List Nat) : Prop :=
  s.root = l.head? ∧ l.Nodup ∧ wfChain s.cells none l

instance (s : LL) (l : List Nat) : Decidable (representsLL s l) :=
  inferInstanceAs (Decidable (_ ∧ _))

/-- The id of the last element of `l`, or `pr` when `l` is empty: the
`prev` pointer that a well-formed chain assigns to whatever follows `l`. -/
def lastOr : List Nat → Option Nat → Option Nat
  | [], pr => pr
  | x :: rest, _ => lastOr rest (some x)

/-! ## Basic lemmas -/

theorem eps_pos : 0 < eps := by norm_num [eps]

theorem junkEdge_wf : edgeWF junkEdge := by decide

theorem getEdge_wf (edges : List BoEdge) (hWF : EdgesWF edges) (id : Nat) :
    edgeWF (getEdge edges id) := by
  unfold getEdge
  split
  · exact junkEdge_wf
  · rw [List.getD_eq_getElem?_getD]
    rcases h : edges[id - 1]? with _ | e
    · exact junkEdge_wf
    · exact hWF _ (List.getElem?_mem h)

/-- The inverted Y-bound check in `NhLineSegment::intersection` is
unsatisfiable whenever the receiver's bounds are strictly ordered, so the
segment intersection of any stored edge with anything is `None`. -/
theorem NhSeg.intersection_eq_none (s t : NhSeg) (h : s.top < s.bottom) :
    s.intersection t = none := by
  unfold NhSeg.intersection
  cases hI : s.line.intersection t.line with
  | none => rfl
  | some p =>
      simp only [Option.some_bind]
      rw [if_neg]
      rintro ⟨h1, h2, -⟩
      exact absurd (le_trans h2 h1) (not_le.mpr h)

theorem intersectionEvent_eq_none (e1 e2 : BoEdge)
    (h : e1.seg.top < e1.seg.bottom) : intersectionEvent e1 e2 = none := by
  unfold intersectionEvent BoEdge.intersectionEventRaw
  split
  · rfl
  · rw [NhSeg.intersection_eq_none _ _ h]
    rfl

theorem bind_interEvent_left_none (edges : List BoEdge) (hWF : EdgesWF edges)
    (o : Option Nat) (e : BoEdge) :
    (o.bind fun pid => intersectionEvent (getEdge edges pid) e) = none := by
  cases o with
  | none => rfl
  | some pid => exact intersectionEvent_eq_none _ _ (getEdge_wf edges hWF pid).1

theorem bind_interEvent_right_none (edges : List BoEdge) (e : BoEdge)
    (he : e.seg.top < e.seg.bottom) (o : Option Nat) :
    (o.bind fun nid => intersectionEvent e (getEdge edges nid)) = none := by
  cases o with
  | none => rfl
  | some nid => exact intersectionEvent_eq_none _ _ he

/-! ## Component-preservation lemmas for the driver's operations -/

theorem addEdge_queue (s : AlgState) (id : Nat) : (s.addEdge id).queue = s.queue := rfl

theorem addEdge_edges (s : AlgState) (id : Nat) : (s.addEdge id).edges = s.edges := rfl

theorem swapEdge_queue (s : AlgState) (id : Nat) : (s.swapEdge id).queue = s.queue := rfl

theorem swapEdge_edges (s : AlgState) (id : Nat) : (s.swapEdge id).edges = s.edges := rfl

theorem removeEdge_queue (s : AlgState) (id : Nat) :
    (s.removeEdge id).queue = s.queue := by
  unfold AlgState.removeEdge
  dsimp only
  split <;> rfl

theorem removeEdge_edges (s : AlgState) (id : Nat) :
    (s.removeEdge id).edges = s.edges := by
  unfold AlgState.removeEdge
  dsimp only
  split <;> rfl

theorem fuseLeftovers_queue (s : AlgState) (eid : Nat) :
    (s.fuseLeftovers eid).queue = s.queue := by
  unfold AlgState.fuseLeftovers
  split
  · dsimp only
    split <;> rfl
  · rfl

theorem fuseLeftovers_edges (s : AlgState) (eid : Nat) :
    (s.fuseLeftovers eid).edges = s.edges := by
  unfold AlgState.fuseLeftovers
  split
  · dsimp only
    split <;> rfl
  · rfl

theorem drainLeftoverIds_queue (ids : List Nat) :
    ∀ s : AlgState, (drainLeftoverIds s ids).queue = s.queue := by
  induction ids with
  | nil => intro s; rfl
  | cons i rest ih => intro s; rw [drainLeftoverIds, ih]

theorem drainLeftoverIds_edges (ids : List Nat) :
    ∀ s : AlgState, (drainLeftoverIds s ids).edges = s.edges := by
  induction ids with
  | nil => intro s; rfl
  | cons i rest ih => intro s; rw [drainLeftoverIds, ih]

theorem sweepTrapsFold_queue (prs : List (Nat × Nat)) :
    ∀ s : AlgState, (sweepTrapsFold s prs).queue = s.queue := by
  induction prs with
  | nil => intro s; rfl
  | cons p rest ih => intro s; rw [sweepTrapsFold, ih]

theorem sweepTrapsFold_edges (prs : List (Nat × Nat)) :
    ∀ s : AlgState, (sweepTrapsFold s prs).edges = s.edges := by
  induction prs with
  | nil => intro s; rfl
  | cons p rest ih => intro s; rw [sweepTrapsFold, ih]

theorem incrementY_queue (s : AlgState) (y : ℚ) :
    (s.incrementY y).queue = s.queue := by
  unfold AlgState.incrementY
  split
  · split
    · rw [sweepTrapsFold_queue, drainLeftoverIds_queue]
    · rfl
  · rfl

theorem incrementY_edges (s : AlgState) (y : ℚ) :
    (s.incrementY y).edges = s.edges := by
  unfold AlgState.incrementY
  split
  · split
    · rw [sweepTrapsFold_edges, drainLeftoverIds_edges]
    · rfl
  · rfl

theorem fusedDrain_queue (s : AlgState) : s.fusedDrain.queue = s.queue := by
  unfold AlgState.fusedDrain
  rw [drainLeftoverIds_queue]

theorem fusedDrain_edges (s : AlgState) : s.fusedDrain.edges = s.edges := by
  unfold AlgState.fusedDrain
  rw [drainLeftoverIds_edges]

/-! ## Queue shape of the three event handlers -/

theorem handleStart_queue (s : AlgState) (ev : Event) (hWF : EdgesWF s.edges) :
    (s.handleStartEvent ev).queue =
      s.queue ++ [(getEdge s.edges ev.edgeId).stopEvent] := by
  unfold AlgState.handleStartEvent
  dsimp only
  rw [fuseLeftovers_edges, addEdge_edges,
    bind_interEvent_left_none _ hWF, bind_interEvent_left_none _ hWF]
  rw [fuseLeftovers_queue]
  dsimp only [addEdge_queue]
  simp

theorem handleStart_edges (s : AlgState) (ev : Event) :
    (s.handleStartEvent ev).edges = s.edges := by
  unfold AlgState.handleStartEvent
  dsimp only
  rw [fuseLeftovers_edges, addEdge_edges]

theorem handleStop_queue (s : AlgState) (ev : Event) (hWF : EdgesWF s.edges) :
    (s.handleStopEvent ev).queue = s.queue := by
  unfold AlgState.handleStopEvent
  dsimp only
  split
  · rw [intersectionEvent_eq_none]
    · dsimp only
      rw [removeEdge_queue]
      simp
    · rw [removeEdge_edges]
      exact (getEdge_wf s.edges hWF _).1
  · rw [removeEdge_queue]

theorem handleStop_edges (s : AlgState) (ev : Event) :
    (s.handleStopEvent ev).edges = s.edges := by
  unfold AlgState.handleStopEvent
  dsimp only
  split
  · rw [removeEdge_edges]
  · rw [removeEdge_edges]

theorem handleInter_queue (s : AlgState) (ev : Event) (hWF : EdgesWF s.edges) :
    (s.handleIntersectionEvent ev).queue = s.queue := by
  unfold AlgState.handleIntersectionEvent
  dsimp only
  split
  · rw [swapEdge_queue]
  · rw [bind_interEvent_left_none _ (by rw [swapEdge_edges]; exact hWF),
      bind_interEvent_right_none _ _
        (by rw [swapEdge_edges]; exact (getEdge_wf s.edges hWF _).1)]
    dsimp only
    rw [swapEdge_queue]
    simp

theorem handleInter_edges (s : AlgState) (ev : Event) :
    (s.handleIntersectionEvent ev).edges = s.edges := by
  unfold AlgState.handleIntersectionEvent
  dsimp only
  split
  · rw [swapEdge_edges]
  · rw [swapEdge_edges]

/-! ## Event-order lemmas -/

theorem ptLexLe_refl (a : Pt) : ptLexLe a a := Or.inr ⟨rfl, le_refl _⟩

theorem ptLexLe_trans {a b c : Pt} (h1 : ptLexLe a b) (h2 : ptLexLe b c) :
    ptLexLe a c := by
  rcases h1 with h1 | ⟨e1, x1⟩ <;> rcases h2 with h2 | ⟨e2, x2⟩
  · exact Or.inl (lt_trans h1 h2)
  · exact Or.inl (e2 ▸ h1)
  · exact Or.inl (e1 ▸ h2)
  · exact Or.inr ⟨e1.trans e2, le_trans x1 x2⟩

theorem ptLexLe_total (a b : Pt) : ptLexLe a b ∨ ptLexLe b a := by
  rcases lt_trichotomy a.y b.y with h | h | h
  · exact Or.inl (Or.inl h)
  · rcases le_total a.x b.x with hx | hx
    · exact Or.inl (Or.inr ⟨h, hx⟩)
    · exact Or.inr (Or.inr ⟨h.symm, hx⟩)
  · exact Or.inr (Or.inl h)

theorem popMin_eq_nil {tail : List Event} (h : popMin tail = none) :
    tail = [] := by
  cases tail with
  | nil => rfl
  | cons e r =>
      unfold popMin at h
      cases hr : popMin r with
      | none => rw [hr] at h; simp at h
      | some p =>
          obtain ⟨m, rest⟩ := p
          rw [hr] at h
          dsimp only at h
          split at h <;> simp at h

theorem popMin_spec (q : List Event) (m : Event) (rest : List Event)
    (h : popMin q = some (m, rest)) :
    m ∈ q ∧ (∀ x ∈ rest, x ∈ q) ∧ (∀ x ∈ q, ptLexLe m.point x.point) := by
  induction q generalizing m rest with
  | nil => simp [popMin] at h
  | cons e tail ih =>
      unfold popMin at h
      cases htail : popMin tail with
      | none =>
          have htl : tail = [] := popMin_eq_nil htail
          subst htl
          rw [htail] at h
          obtain ⟨rfl, rfl⟩ : e = m ∧ [] = rest := by simpa using h
          refine ⟨List.mem_cons_self _ _, by simp, ?_⟩
          intro x hx
          rcases List.mem_cons.mp hx with rfl | hx'
          · exact ptLexLe_refl _
          · simp at hx'
      | some p =>
          obtain ⟨m', rest'⟩ := p
          rw [htail] at h
          dsimp only at h
          obtain ⟨hm, hr, hmin⟩ := ih m' rest' htail
          split at h
          · next hle =>
              obtain ⟨rfl, rfl⟩ : e = m ∧ tail = rest := by simpa using h
              refine ⟨List.mem_cons_self _ _, fun x hx => List.mem_cons_of_mem _ hx, ?_⟩
              intro x hx
              rcases List.mem_cons.mp hx with rfl | hx'
              · exact ptLexLe_refl _
              · exact ptLexLe_trans hle (hmin x hx')
          · next hle =>
              obtain ⟨h1, h2⟩ : m' = m ∧ e :: rest' = rest := by simpa using h
              subst h1
              subst h2
              refine ⟨List.mem_cons_of_mem _ hm, ?_, ?_⟩
              · intro x hx
                rcases List.mem_cons.mp hx with rfl | hx'
                · exact List.mem_cons_self _ _
                · exact List.mem_cons_of_mem _ (hr x hx')
              · intro x hx
                rcases List.mem_cons.mp hx with rfl | hx'
                · rcases ptLexLe_total x.point m'.point with h' | h'
                  · exact absurd h' hle
                  · exact h'
                · exact hmin x hx'

theorem popLoop_spec (edges : List BoEdge) (fuel : Nat) :
    ∀ (q : List Event) (ev : Event) (rest : List Event),
      popLoop edges fuel q = some (ev, rest) →
      ev ∈ q ∧ (∀ x ∈ rest, x ∈ q) ∧ (∀ x ∈ rest, ptLexLe ev.point x.point) := by
  induction fuel with
  | zero => intro q ev rest h; simp [popLoop] at h
  | succ n ih =>
      intro q ev rest h
      unfold popLoop at h
      cases hp : popMin q with
      | none => rw [hp] at h; simp at h
      | some p =>
          obtain ⟨m, r⟩ := p
          rw [hp] at h
          dsimp only at h
          obtain ⟨hm, hr, hmin⟩ := popMin_spec q m r hp
          split at h
          · obtain ⟨g1, g2, g3⟩ := ih r ev rest h
            exact ⟨hr ev g1, fun x hx => hr x (g2 x hx), g3⟩
          · obtain ⟨rfl, rfl⟩ : m = ev ∧ r = rest := by simpa using h
            exact ⟨hm, hr, fun x hx => hmin x (hr x hx)⟩

/-- Everything `next_event` guarantees about the queue: the returned event
comes from the queue, the arena is untouched, every remaining or pushed
event is at or after the returned event in (Y, X) order, start events stay
anchored at their edge's top Y, and no intersection event ever appears. -/
theorem nextEvent_spec (s : AlgState) (ev : Event) (s' : AlgState)
    (h : nextEvent s = some (ev, s')) (hWF : EdgesWF s.edges)
    (hS : QueueStartWF s.edges s.queue) :
    s'.edges = s.edges ∧ ev ∈ s.queue ∧ QueueStartWF s.edges s'.queue ∧
      (∀ x ∈ s'.queue, ptLexLe ev.point x.point) ∧
      ((∀ x ∈ s.queue, ∀ o, x.eventType ≠ .inter o) →
        ∀ x ∈ s'.queue, ∀ o, x.eventType ≠ .inter o) := by
  unfold nextEvent at h
  cases hp : popLoop s.edges s.queue.length s.queue with
  | none => rw [hp] at h; simp at h
  | some p =>
      obtain ⟨m, rest⟩ := p
      rw [hp] at h
      dsimp only at h
      obtain ⟨hmq, hsub, hbnd⟩ := popLoop_spec s.edges _ _ _ _ hp
      obtain ⟨h1, h2⟩ : m = ev ∧ _ = s' := by simpa using h
      subst h1
      have hq3 :
          (({ (AlgState.incrementY { s with queue := rest } m.point.y) with
              currentY := m.point.y } : AlgState)).queue = rest := by
        rw [incrementY_queue]
      have he3 :
          (({ (AlgState.incrementY { s with queue := rest } m.point.y) with
              currentY := m.point.y } : AlgState)).edges = s.edges := by
        rw [incrementY_edges]
      cases hty : m.eventType with
      | start =>
          rw [hty] at h2
          have hq' : s'.queue = rest ++ [(getEdge s.edges m.edgeId).stopEvent] := by
            rw [← h2, handleStart_queue _ _ (by rw [he3]; exact hWF), hq3, he3]
          have he' : s'.edges = s.edges := by
            rw [← h2, handleStart_edges, he3]
          have hstop :
              ptLexLe m.point ((getEdge s.edges m.edgeId).stopEvent).point := by
            have hwfe := getEdge_wf s.edges hWF m.edgeId
            have hy : m.point.y = (getEdge s.edges m.edgeId).seg.top :=
              hS m hmq hty
            refine Or.inl ?_
            show m.point.y < (getEdge s.edges m.edgeId).highestY.y
            rw [hy, hwfe.2.2.1]
            exact hwfe.1
          refine ⟨he', hmq, ?_, ?_, ?_⟩
          · intro x hx hxty
            rw [hq'] at hx
            rcases List.mem_append.mp hx with hx' | hx'
            · exact hS x (hsub x hx') hxty
            · rw [List.mem_singleton.mp hx'] at hxty
              exact absurd hxty (by simp [BoEdge.stopEvent])
          · intro x hx
            rw [hq'] at hx
            rcases List.mem_append.mp hx with hx' | hx'
            · exact hbnd x hx'
            · rw [List.mem_singleton.mp hx']
              exact hstop
          · intro hni x hx o
            rw [hq'] at hx
            rcases List.mem_append.mp hx with hx' | hx'
            · exact hni x (hsub x hx') o
            · rw [List.mem_singleton.mp hx']
              simp [BoEdge.stopEvent]
      | stop =>
          rw [hty] at h2
          have hq' : s'.queue = rest := by
            rw [← h2, handleStop_queue _ _ (by rw [he3]; exact hWF), hq3]
          have he' : s'.edges = s.edges := by
            rw [← h2, handleStop_edges, he3]
          exact ⟨he', hmq,
            fun x hx hxty => hS x (hsub x (hq' ▸ hx)) hxty,
            fun x hx => hbnd x (hq' ▸ hx),
            fun hni x hx o => hni x (hsub x (hq' ▸ hx)) o⟩
      | inter o =>
          rw [hty] at h2
          have hq' : s'.queue = rest := by
            rw [← h2, handleInter_queue _ _ (by rw [he3]; exact hWF), hq3]
          have he' : s'.edges = s.edges := by
            rw [← h2, handleInter_edges, he3]
          exact ⟨he', hmq,
            fun x hx hxty => hS x (hsub x (hq' ▸ hx)) hxty,
            fun x hx => hbnd x (hq' ▸ hx),
            fun hni x hx o' => hni x (hsub x (hq' ▸ hx)) o'⟩

/-- Sortedness and lower-bound propagation for the whole event stream. -/
theorem runEvents_sorted_aux (fuel : Nat) :
    ∀ s : AlgState, EdgesWF s.edges → QueueStartWF s.edges s.queue →
      (runEvents fuel s).Pairwise (fun a b => ptLexLe a.point b.point) ∧
        (∀ lb : Pt, (∀ x ∈ s.queue, ptLexLe lb x.point) →
          ∀ ev ∈ runEvents fuel s, ptLexLe lb ev.point) := by
  induction fuel with
  | zero =>
      intro s _ _
      exact ⟨List.Pairwise.nil, fun lb _ ev h => by simp [runEvents] at h⟩
  | succ n ih =>
      intro s hWF hS
      unfold runEvents
      cases hne : nextEvent s with
      | none => exact ⟨List.Pairwise.nil, fun lb _ ev h => by simp at h⟩
      | some p =>
          obtain ⟨ev, s'⟩ := p
          obtain ⟨hE, hMem, hS', hB, -⟩ := nextEvent_spec s ev s' hne hWF hS
          have hWF' : EdgesWF s'.edges := by rw [hE]; exact hWF
          have hS'' : QueueStartWF s'.edges s'.queue := by rw [hE]; exact hS'
          obtain ⟨hPW, hLB⟩ := ih s' hWF' hS''
          constructor
          · exact List.Pairwise.cons (fun b hb => hLB ev.point hB b hb) hPW
          · intro lb hlb x hx
            rcases List.mem_cons.mp hx with rfl | hx'
            · exact hlb x hMem
            · exact ptLexLe_trans (hlb ev hMem) (hLB ev.point hB x hx')

/-- No event produced by a run is an intersection event (the queue starts
with start events only, and the handlers only ever push stop events because
`intersection_event` is constantly `None` on stored edges). -/
theorem runEvents_noInter (fuel : Nat) :
    ∀ s : AlgState, EdgesWF s.edges → QueueStartWF s.edges s.queue →
      (∀ x ∈ s.queue, ∀ o, x.eventType ≠ .inter o) →
      ∀ ev ∈ runEvents fuel s, ∀ o, ev.eventType ≠ .inter o := by
  induction fuel with
  | zero => intro s _ _ _ ev h; simp [runEvents] at h
  | succ n ih =>
      intro s hWF hS hNI ev hev
      unfold runEvents at hev
      cases hne : nextEvent s with
      | none => rw [hne] at hev; simp at hev
      | some p =>
          obtain ⟨ev', s'⟩ := p
          rw [hne] at hev
          obtain ⟨hE, hMem, hS', -, hNI'⟩ := nextEvent_spec s ev' s' hne hWF hS
          rcases List.mem_cons.mp hev with rfl | hev'
          · exact hNI ev hMem
          · exact ih s' (by rw [hE]; exact hWF) (by rw [hE]; exact hS')
              (hNI' hNI) ev hev'

/-! ## Initial-state facts -/

theorem toNh_some_wf (s : LineSeg) (seg : NhSeg) (h : s.toNh = some seg) :
    seg.top < seg.bottom ∧ ¬ seg.line.isHorizontal := by
  unfold LineSeg.toNh at h
  dsimp only at h
  split at h
  · exact absurd h (by simp)
  · next hnh =>
      obtain rfl : _ = seg := by simpa using h
      refine ⟨?_, hnh⟩
      have hne : s.fr.y ≠ s.toP.y := by
        intro hc
        apply hnh
        show approxEq (Pt.sub s.toP s.fr).y 0
        unfold approxEq Pt.sub
        simp [← hc, eps_pos]
      show (order2 s.fr.y s.toP.y).1 < (order2 s.fr.y s.toP.y).2
      unfold order2
      split
      · assumption
      · next hnl => exact lt_of_le_of_ne (not_lt.mp hnl) (Ne.symm hne)

theorem mkEdges_wf (segs : List LineSeg) : EdgesWF (mkEdges segs) := by
  intro e he
  unfold mkEdges at he
  obtain ⟨⟨i, seg⟩, hmem, rfl⟩ := List.mem_map.mp he
  have hseg : seg ∈ segs.filterMap LineSeg.toNh :=
    List.snd_mem_of_mem_enum hmem
  obtain ⟨orig, -, horig⟩ := List.mem_filterMap.mp hseg
  obtain ⟨ht, hnh⟩ := toNh_some_wf orig seg horig
  exact ⟨ht, rfl, rfl, hnh⟩

theorem mkEdges_getElem (segs : List LineSeg) (j : Nat)
    (h : j < (mkEdges segs).length) :
    (mkEdges segs)[j] =
      BoEdge.fromEdge ((segs.filterMap LineSeg.toNh).get ⟨j, by
        simpa [mkEdges] using h⟩) (j + 1) := by
  simp [mkEdges]

theorem getEdge_mkEdges (segs : List LineSeg) (j : Nat)
    (h : j < (mkEdges segs).length) :
    getEdge (mkEdges segs) (j + 1) = (mkEdges segs)[j] := by
  unfold getEdge
  rw [if_neg (by omega), List.getD_eq_getElem?_getD]
  simp [List.getElem?_eq_getElem, h]

theorem algorithmNew_startWF (segs : List LineSeg) (useT : Bool)
    (fr : FillRule) :
    QueueStartWF (algorithmNew segs useT fr).edges
      (algorithmNew segs useT fr).queue := by
  intro ev hev _
  have hq : (algorithmNew segs useT fr).queue =
      (mkEdges segs).map BoEdge.startEvent := rfl
  rw [hq] at hev
  obtain ⟨e, he, rfl⟩ := List.mem_map.mp hev
  obtain ⟨j, hj, rfl⟩ := List.getElem_of_mem he
  have hid : ((mkEdges segs)[j]).startEvent.edgeId = j + 1 := by
    rw [mkEdges_getElem segs j hj]
    rfl
  rw [hid]
  have he' : (algorithmNew segs useT fr).edges = mkEdges segs := rfl
  show ((mkEdges segs)[j]).lowestY.y =
    (getEdge (algorithmNew segs useT fr).edges (j + 1)).seg.top
  rw [he', getEdge_mkEdges segs j hj, mkEdges_getElem segs j hj]
  rfl

theorem algorithmNew_noInter (segs : List LineSeg) (useT : Bool)
    (fr : FillRule) :
    ∀ x ∈ (algorithmNew segs useT fr).queue, ∀ o, x.eventType ≠ .inter o := by
  intro x hx o
  obtain ⟨e, -, rfl⟩ := List.mem_map.mp hx
  simp [BoEdge.startEvent]

/-- Because `NhLineSegment::intersection`'s Y-bound check is inverted, no
intersection event is ever generated, for any input whatsoever. -/
theorem intersectionsOut_eq_nil (fuel : Nat) (segs : List LineSeg) :
    intersectionsOut fuel segs = [] := by
  unfold intersectionsOut
  rw [List.filterMap_eq_nil_iff]
  intro ev hev
  have hno := runEvents_noInter fuel (algorithmNew segs false .winding)
    (mkEdges_wf segs) (algorithmNew_startWF segs false .winding)
    (algorithmNew_noInter segs false .winding) ev hev
  cases hty : ev.eventType with
  | start => rfl
  | stop => rfl
  | inter o => exact absurd hty (hno o)

/-! ## Claim theorems -/

/-- C1 (code_bug evidence): on the two crossing diagonals
`(0,0)-(10,10)` and `(0,10)-(10,0)` the `intersections` entry point yields
no intersection point at all — not the expected `[(5,5)]`.  The theorem
holds for every fuel, so it is not an artifact of truncating the run: the
inverted Y-bound check in `NhLineSegment::intersection` (`top >= y &&
bottom <= y`) rejects every candidate point, and `Line::intersection`
additionally rejects the negative determinant of this pair. -/
theorem c1_crossing_diagonals_yield_nothing (fuel : Nat) :
    intersectionsOut fuel [⟨⟨0, 0⟩, ⟨10, 10⟩⟩, ⟨⟨0, 10⟩, ⟨10, 0⟩⟩] = [] :=
  intersectionsOut_eq_nil fuel _

/-- C2: for every input segment list (and either driver variant), the event
sequence returned by successive `next_event` calls is non-decreasing in
(point.y, point.x) lexicographic order — exactly, hence in particular
modulo the approximate-equality tolerance — and so is the yielded
intersection-point sequence of the `intersections` pipeline. -/
theorem c2_events_sorted (segs : List LineSeg) (useT : Bool) (fr : FillRule)
    (fuel : Nat) :
    (runEvents fuel (algorithmNew segs useT fr)).Pairwise
        (fun a b => ptLexLe a.point b.point) ∧
      (intersectionsOut fuel segs).Pairwise ptLexLe := by
  constructor
  · exact (runEvents_sorted_aux fuel (algorithmNew segs useT fr)
      (mkEdges_wf segs) (algorithmNew_startWF segs useT fr)).1
  · unfold intersectionsOut
    refine List.Pairwise.filterMap _ ?_
      (runEvents_sorted_aux fuel _ (mkEdges_wf segs)
        (algorithmNew_startWF segs false .winding)).1
    intro a a' hR b hb b' hb'
    have hpt : ∀ (x : Event) (c : Pt),
        c ∈ (match x.eventType with
             | .inter _ => some x.point
             | _ => none : Option Pt) → c = x.point := by
      intro x c hc
      cases hx : x.eventType with
      | start => rw [hx] at hc; simp at hc
      | stop => rw [hx] at hc; simp at hc
      | inter o => rw [hx] at hc; simp at hc; exact hc.symm
    rw [hpt a b hb, hpt a' b' hb']
    exact hR

/-- C6 counterexample: the vertical line through the origin and the diagonal
line through (1,0) are not parallel (their directions' cross product is -1,
and the source's own parallelism test `Line::intersects` affirms they
intersect), yet `Line::intersection` returns `None` because the signed
determinant -1 is `≤ epsilon`.  This falsifies "returns None if and only if
parallel". -/
theorem c6_counterexample :
    Line.intersection ⟨⟨0, 0⟩, ⟨0, 1⟩⟩ ⟨⟨1, 0⟩, ⟨1, 1⟩⟩ = none ∧
      Line.intersects ⟨⟨0, 0⟩, ⟨0, 1⟩⟩ ⟨⟨1, 0⟩, ⟨1, 1⟩⟩ := by
  constructor
  · decide
  · decide

/-- C6 amended: `Line::intersection` returns `None` exactly when the signed
determinant (cross product of the two direction vectors, in argument order)
is `≤ epsilon`; parallel pairs satisfy this, but so do all pairs crossing
with negative orientation. -/
theorem c6_amended_none_iff_det_le_eps (a b : Line) :
    a.intersection b = none ↔ a.direction.cross b.direction ≤ eps := by
  unfold Line.intersection
  dsimp only
  split
  · next h => exact iff_of_true rfl h
  · next h => exact iff_of_false (by simp) h

/-- C7 counterexample: the vertical line with direction (0,1) is `vertical`,
yet `point_at_y(5)` returns `Some (0,5)` — `point_at_y` in fact fails on
horizontal lines (`direction.y ≈ 0`), not vertical ones; the claim follows a
doc comment that swapped the two words. -/
theorem c7_counterexample :
    Line.isVertical ⟨⟨0, 0⟩, ⟨0, 1⟩⟩ ∧
      Line.pointAtY ⟨⟨0, 0⟩, ⟨0, 1⟩⟩ 5 = some ⟨0, 5⟩ := by
  constructor
  · decide
  · decide

/-- C7 amended: `point_at_y(y)` returns `None` iff the line is horizontal
(`direction.y ≈ 0`); on every other line it returns `Some` of a point whose
Y coordinate is the given `y`. -/
theorem c7_amended_pointAtY_none_iff_horizontal (l : Line) (y : ℚ) :
    (l.pointAtY y = none ↔ l.isHorizontal) ∧
      ∀ p, l.pointAtY y = some p → p.y = y := by
  unfold Line.pointAtY Line.isHorizontal
  constructor
  · split
    · next h => exact iff_of_true rfl h
    · next h => exact iff_of_false (by simp) h
  · intro p hp
    split at hp
    · exact absurd hp (by simp)
    · obtain rfl : _ = p := by simpa using hp
      rfl

theorem c7_amended_witness : (⟨5, 3⟩ : Pt).y = 3 :=
  (c7_amended_pointAtY_none_iff_horizontal ⟨⟨2, 0⟩, ⟨1, 1⟩⟩ 3).2 ⟨5, 3⟩
    (by decide)

/-- C9: calling `swap` on an edge without a successor does not panic and is
a complete no-op: the root pointer and every `prev`/`next`/`trapezoid` cell
keep their prior values (the source logs an error and returns early). -/
theorem c9_swap_without_successor_is_noop (s : LL) (id : Nat)
    (h : (getCell s.cells id).next = none) : s.swap id = s := by
  unfold LL.swap
  rw [h]

theorem c9_witness :
    LL.swap ⟨some 1, [⟨none, none, none⟩]⟩ 1 =
      ⟨some 1, [⟨none, none, none⟩]⟩ :=
  c9_swap_without_successor_is_noop _ _ (by decide)

/-- C4: `start_trapezoid` behaves exactly as the specification's
partial-trapezoid protocol describes — fresh partial when none exists,
no-op on an identical right edge, extension (keeping `top_y`) on a colinear
right edge, and otherwise completion at `bottom_y = current_y` (dropping the
trapezoid when `bottom < top`) followed by installation of a fresh partial. -/
theorem c4_start_trapezoid_matches_protocol (cells : List Cell)
    (edges : List BoEdge) (l r : Nat) (y : ℚ) :
    startTrapC cells edges l r y = startTrapSpec cells edges l r y := by
  unfold startTrapC startTrapSpec PartialTrap.complete
  cases (getCell cells l).trap with
  | none => rfl
  | some pt => rfl

/-- C10: every edge the ingest phase stores has a non-horizontal line, and
on such lines `x_for_y` is total (its "horizontal line" panic branch is
unreachable) at every Y; moreover the ingest filter (`NhLineSegment::new`)
rejects a segment exactly when its line is horizontal, which is literally
the same `direction.y ≈ 0` test `point_at_y` uses for returning `None`. -/
theorem c10_arena_never_horizontal (segs : List LineSeg) :
    (∀ e ∈ mkEdges segs, ¬ e.seg.line.isHorizontal ∧
        ∀ y : ℚ, (xForY e.seg.line y).isSome) ∧
      (∀ s : LineSeg, s.toNh = none ↔ s.line.isHorizontal) ∧
      (∀ (l : Line) (y : ℚ), l.pointAtY y = none ↔ l.isHorizontal) := by
  refine ⟨?_, ?_, ?_⟩
  · intro e he
    have hwf := mkEdges_wf segs e he
    refine ⟨hwf.2.2.2, ?_⟩
    intro y
    unfold xForY Line.pointAtY
    split
    · next hcond => exact absurd hcond hwf.2.2.2
    · rfl
  · intro s
    unfold LineSeg.toNh LineSeg.line
    dsimp only
    split
    · next h => exact iff_of_true rfl h
    · next h => exact iff_of_false (by simp) h
  · intro l y
    unfold Line.pointAtY Line.isHorizontal
    split
    · next h => exact iff_of_true rfl h
    · next h => exact iff_of_false (by simp) h

theorem c10_witness :
    ¬ (getEdge (mkEdges [⟨⟨0, 0⟩, ⟨10, 10⟩⟩]) 1).seg.line.isHorizontal :=
  ((c10_arena_never_horizontal [⟨⟨0, 0⟩, ⟨10, 10⟩⟩]).1
    (getEdge (mkEdges [⟨⟨0, 0⟩, ⟨10, 10⟩⟩]) 1) (by decide)).1

/-- The trapezoid hook of `handle_start_event` only reads the sweep-line
state, so the queue contents in between do not affect its cell updates. -/
theorem fuseLeftovers_queue_indep (s : AlgState) (q : List Event) (eid : Nat) :
    ((({ s with queue := q } : AlgState).fuseLeftovers eid).cells =
        (s.fuseLeftovers eid).cells) ∧
      ((({ s with queue := q } : AlgState).fuseLeftovers eid).activeRoot =
        (s.fuseLeftovers eid).activeRoot) := by
  unfold AlgState.fuseLeftovers
  dsimp only [AlgState.leftoverLL]
  split
  · split <;> exact ⟨rfl, rfl⟩
  · exact ⟨rfl, rfl⟩

/-- C3: on a Start event for edge `e` the driver's whole effect is: the
sweep line gets `e` inserted (plus the trapezoid variant's leftover fusion)
— conjuncts three and four — and the queue grows by exactly the Stop event
for `e` followed by the enqueued `intersection_event(p, e)` and
`intersection_event(e, n)` contributions for the new neighbors (which are
all `None` here, as for every pair of stored edges); and
`intersection_event(a, b)` returns `None` whenever
`b.lowest_y.x ≤ a.lowest_y.x`. -/
theorem c3_start_event_protocol (s : AlgState) (ev : Event)
    (hWF : EdgesWF s.edges) :
    ((s.handleStartEvent ev).queue =
        s.queue ++ [(getEdge s.edges ev.edgeId).stopEvent] ++
          ((getCell (s.handleStartEvent ev).cells ev.edgeId).prev.bind
            fun pid => intersectionEvent (getEdge s.edges pid)
              (getEdge s.edges ev.edgeId)).toList ++
          ((getCell (s.handleStartEvent ev).cells ev.edgeId).next.bind
            fun nid => intersectionEvent (getEdge s.edges ev.edgeId)
              (getEdge s.edges nid)).toList) ∧
      (∀ a b : BoEdge, b.lowestY.x ≤ a.lowestY.x →
        intersectionEvent a b = none) ∧
      (s.handleStartEvent ev).cells =
        ((s.addEdge ev.edgeId).fuseLeftovers ev.edgeId).cells ∧
      (s.handleStartEvent ev).activeRoot =
        ((s.addEdge ev.edgeId).fuseLeftovers ev.edgeId).activeRoot := by
  refine ⟨?_, ?_, ?_, ?_⟩
  · rw [handleStart_queue s ev hWF,
      bind_interEvent_left_none s.edges hWF _ _,
      bind_interEvent_right_none s.edges _ (getEdge_wf s.edges hWF ev.edgeId).1 _]
    simp
  · intro a b hle
    unfold intersectionEvent
    rw [if_pos hle]
  · exact (fuseLeftovers_queue_indep (s.addEdge ev.edgeId) _ ev.edgeId).1
  · exact (fuseLeftovers_queue_indep (s.addEdge ev.edgeId) _ ev.edgeId).2

theorem c3_witness : intersectionEvent junkEdge junkEdge = none :=
  (c3_start_event_protocol (algorithmNew [] false .winding)
    ⟨⟨⟨0, 0⟩, ⟨0, 1⟩⟩, .start, ⟨0, 0⟩, 1⟩ (by decide)).2.1 junkEdge junkEdge
    (by decide)

/-! ## Trapezoid invariant (claim C5) -/

theorem complete_goodTrap (pt : PartialTrap) (l : Nat) (bottom : ℚ)
    (edges : List BoEdge) (hWF : EdgesWF edges) (t : Trap)
    (h : pt.complete l bottom edges = some t) : goodTrap t := by
  unfold PartialTrap.complete at h
  split at h
  · simp at h
  · next hb =>
      obtain rfl : _ = t := by simpa using h
      exact ⟨not_lt.mp hb, (getEdge_wf edges hWF l).2.2.2,
        (getEdge_wf edges hWF pt.rightEdge).2.2.2⟩

theorem completeTrapC_goodTrap (cells : List Cell) (edges : List BoEdge)
    (id : Nat) (bottom : ℚ) (hWF : EdgesWF edges) (t : Trap)
    (h : (completeTrapC cells edges id bottom).2 = some t) : goodTrap t := by
  unfold completeTrapC at h
  cases hc : (getCell cells id).trap with
  | none => rw [hc] at h; simp at h
  | some pt =>
      rw [hc] at h
      exact complete_goodTrap pt id bottom edges hWF t h

theorem startTrapC_goodTrap (cells : List Cell) (edges : List BoEdge)
    (l r : Nat) (y : ℚ) (hWF : EdgesWF edges) (t : Trap)
    (h : (startTrapC cells edges l r y).2 = some t) : goodTrap t := by
  unfold startTrapC at h
  cases hc : (getCell cells l).trap with
  | none => rw [hc] at h; simp at h
  | some pt =>
      rw [hc] at h
      dsimp only at h
      split at h
      · simp at h
      · split at h
        · simp at h
        · exact complete_goodTrap pt l y edges hWF t h

theorem drainLeftoverIds_good (ids : List Nat) :
    ∀ s : AlgState, EdgesWF s.edges → (∀ u ∈ s.trapBuf, goodTrap u) →
      ∀ t ∈ (drainLeftoverIds s ids).trapBuf, goodTrap t := by
  induction ids with
  | nil => intro s _ hg; exact hg
  | cons i rest ih =>
      intro s hWF hg
      rw [drainLeftoverIds]
      refine ih _ hWF ?_
      intro t ht
      rcases List.mem_append.mp ht with h | h
      · exact hg t h
      · exact completeTrapC_goodTrap s.cells s.edges i _ hWF t
          (by simpa using h)

theorem sweepTrapsFold_good (prs : List (Nat × Nat)) :
    ∀ s : AlgState, EdgesWF s.edges → (∀ u ∈ s.trapBuf, goodTrap u) →
      ∀ t ∈ (sweepTrapsFold s prs).trapBuf, goodTrap t := by
  induction prs with
  | nil => intro s _ hg; exact hg
  | cons p rest ih =>
      intro s hWF hg
      rw [sweepTrapsFold]
      refine ih _ hWF ?_
      intro t ht
      rcases List.mem_append.mp ht with h | h
      · exact hg t h
      · exact startTrapC_goodTrap s.cells s.edges p.1 p.2 _ hWF t
          (by simpa using h)

theorem incrementY_good (s : AlgState) (newY : ℚ) (hWF : EdgesWF s.edges)
    (hg : ∀ u ∈ s.trapBuf, goodTrap u) :
    ∀ t ∈ (s.incrementY newY).trapBuf, goodTrap t := by
  unfold AlgState.incrementY
  split
  · split
    · refine sweepTrapsFold_good _ _ ?_ ?_
      · rw [drainLeftoverIds_edges]
        exact hWF
      · exact drainLeftoverIds_good _ _ hWF hg
    · exact hg
  · exact hg

theorem fusedDrain_good (s : AlgState) (hWF : EdgesWF s.edges)
    (hg : ∀ u ∈ s.trapBuf, goodTrap u) :
    ∀ t ∈ s.fusedDrain.trapBuf, goodTrap t := by
  unfold AlgState.fusedDrain
  exact drainLeftoverIds_good _ _ hWF hg

theorem removeEdge_trapBuf (s : AlgState) (id : Nat) :
    (s.removeEdge id).trapBuf = s.trapBuf := by
  unfold AlgState.removeEdge
  dsimp only
  split <;> rfl

theorem fuseLeftovers_trapBuf (s : AlgState) (eid : Nat) :
    (s.fuseLeftovers eid).trapBuf = s.trapBuf := by
  unfold AlgState.fuseLeftovers
  dsimp only
  split
  · split <;> rfl
  · rfl

theorem handleStart_trapBuf (s : AlgState) (ev : Event) :
    (s.handleStartEvent ev).trapBuf = s.trapBuf := by
  unfold AlgState.handleStartEvent
  dsimp only
  rw [fuseLeftovers_trapBuf]
  rfl

theorem handleStop_trapBuf (s : AlgState) (ev : Event) :
    (s.handleStopEvent ev).trapBuf = s.trapBuf := by
  unfold AlgState.handleStopEvent
  dsimp only
  split
  · rw [removeEdge_trapBuf]
  · rw [removeEdge_trapBuf]

theorem handleInter_trapBuf (s : AlgState) (ev : Event) :
    (s.handleIntersectionEvent ev).trapBuf = s.trapBuf := by
  unfold AlgState.handleIntersectionEvent
  dsimp only
  split
  · rfl
  · rfl

theorem nextEvent_edges (s : AlgState) (ev : Event) (s' : AlgState)
    (h : nextEvent s = some (ev, s')) : s'.edges = s.edges := by
  unfold nextEvent at h
  cases hp : popLoop s.edges s.queue.length s.queue with
  | none => rw [hp] at h; simp at h
  | some p =>
      obtain ⟨m, rest⟩ := p
      rw [hp] at h
      dsimp only at h
      obtain ⟨h1, h2⟩ : m = ev ∧ _ = s' := by simpa using h
      cases hty : m.eventType <;> rw [hty] at h2 <;> rw [← h2]
      · rw [handleStart_edges, incrementY_edges]
      · rw [handleStop_edges, incrementY_edges]
      · rw [handleInter_edges, incrementY_edges]

theorem nextEvent_good (s : AlgState) (ev : Event) (s' : AlgState)
    (h : nextEvent s = some (ev, s')) (hWF : EdgesWF s.edges)
    (hg : ∀ u ∈ s.trapBuf, goodTrap u) :
    ∀ t ∈ s'.trapBuf, goodTrap t := by
  unfold nextEvent at h
  cases hp : popLoop s.edges s.queue.length s.queue with
  | none => rw [hp] at h; simp at h
  | some p =>
      obtain ⟨m, rest⟩ := p
      rw [hp] at h
      dsimp only at h
      obtain ⟨h1, h2⟩ : m = ev ∧ _ = s' := by simpa using h
      have hgood :
          ∀ t ∈ (AlgState.incrementY { s with queue := rest }
              m.point.y).trapBuf, goodTrap t :=
        incrementY_good _ _ hWF hg
      cases hty : m.eventType <;> rw [hty] at h2 <;> rw [← h2]
      · rw [handleStart_trapBuf]
        exact hgood
      · rw [handleStop_trapBuf]
        exact hgood
      · rw [handleInter_trapBuf]
        exact hgood

theorem nextTrapezoid_good (fuel : Nat) :
    ∀ (s : AlgState) (t : Trap) (s' : AlgState),
      nextTrapezoid fuel s = some (t, s') → EdgesWF s.edges →
      (∀ u ∈ s.trapBuf, goodTrap u) →
      goodTrap t ∧ s'.edges = s.edges ∧ ∀ u ∈ s'.trapBuf, goodTrap u := by
  induction fuel with
  | zero => intro s t s' h; simp [nextTrapezoid] at h
  | succ n ih =>
      intro s t s' h hWF hg
      unfold nextTrapezoid at h
      cases hl : s.trapBuf.getLast? with
      | some t0 =>
          rw [hl] at h
          dsimp only at h
          obtain ⟨h1, h2⟩ : t0 = t ∧ _ = s' := by simpa using h
          subst h1
          refine ⟨hg t0 (List.mem_of_mem_getLast? hl), ?_, ?_⟩
          · rw [← h2]
          · rw [← h2]
            intro u hu
            exact hg u (List.Sublist.mem hu (List.dropLast_sublist _))
      | none =>
          rw [hl] at h
          dsimp only at h
          cases hne : nextEvent s with
          | some p =>
              obtain ⟨ev, s₂⟩ := p
              rw [hne] at h
              dsimp only at h
              have hE := nextEvent_edges s ev s₂ hne
              have hg₂ := nextEvent_good s ev s₂ hne hWF hg
              obtain ⟨g1, g2, g3⟩ := ih s₂ t s' h (by rw [hE]; exact hWF) hg₂
              exact ⟨g1, by rw [g2, hE], g3⟩
          | none =>
              rw [hne] at h
              dsimp only at h
              split at h
              · simp at h
              · obtain ⟨g1, g2, g3⟩ := ih s.fusedDrain t s' h
                  (by rw [fusedDrain_edges]; exact hWF)
                  (fusedDrain_good s hWF hg)
                exact ⟨g1, by rw [g2, fusedDrain_edges], g3⟩

theorem runTraps_good (fuel : Nat) :
    ∀ s : AlgState, EdgesWF s.edges → (∀ u ∈ s.trapBuf, goodTrap u) →
      ∀ t ∈ runTraps fuel s, goodTrap t := by
  induction fuel with
  | zero => intro s _ _ t ht; simp [runTraps] at ht
  | succ n ih =>
      intro s hWF hg t ht
      unfold runTraps at ht
      cases hnt : nextTrapezoid (n + 1) s with
      | none => rw [hnt] at ht; simp at ht
      | some p =>
          obtain ⟨t0, s'⟩ := p
          rw [hnt] at ht
          obtain ⟨g1, g2, g3⟩ := nextTrapezoid_good (n + 1) s t0 s' hnt hWF hg
          rcases List.mem_cons.mp ht with rfl | ht'
          · exact g1
          · exact ih s' (by rw [g2]; exact hWF) g3 t ht'

/-- C5: every trapezoid yielded by the `trapezoids` pipeline has
`bottom ≥ top` and both of its bounding lines non-horizontal (their
direction's Y component is not approximately zero). -/
theorem c5_every_trapezoid_good (segs : List LineSeg) (fr : FillRule)
    (fuel : Nat) :
    ∀ t ∈ trapezoidsOut fuel segs fr,
      t.top ≤ t.bottom ∧ ¬ t.left.isHorizontal ∧ ¬ t.right.isHorizontal := by
  intro t ht
  exact runTraps_good fuel (algorithmNew segs true fr) (mkEdges_wf segs)
    (by intro u hu; exact absurd hu (List.not_mem_nil u)) t ht

theorem c5_witness :
    (⟨0, 10, ⟨⟨0, 0⟩, ⟨0, 10⟩⟩, ⟨⟨1, 0⟩, ⟨0, 10⟩⟩⟩ : Trap) ∈
        trapezoidsOut 30
          [⟨⟨0, 0⟩, ⟨0, 10⟩⟩, ⟨⟨1, 0⟩, ⟨1, 10⟩⟩, ⟨⟨2, 0⟩, ⟨2, 5⟩⟩] .winding ∧
      ((0 : ℚ) ≤ 10 ∧ ¬ (⟨⟨0, 0⟩, ⟨0, 10⟩⟩ : Line).isHorizontal ∧
        ¬ (⟨⟨1, 0⟩, ⟨0, 10⟩⟩ : Line).isHorizontal) :=
  ⟨by decide,
   c5_every_trapezoid_good
     [⟨⟨0, 0⟩, ⟨0, 10⟩⟩, ⟨⟨1, 0⟩, ⟨1, 10⟩⟩, ⟨⟨2, 0⟩, ⟨2, 5⟩⟩] .winding 30
     ⟨0, 10, ⟨⟨0, 0⟩, ⟨0, 10⟩⟩, ⟨⟨1, 0⟩, ⟨0, 10⟩⟩⟩ (by decide)⟩

/-! ## Cell-level lemmas for the linked list (claim C8) -/

theorem length_setCellF (cells : List Cell) (id : Nat) (f : Cell → Cell) :
    (setCellF cells id f).length = cells.length := by
  unfold setCellF
  split
  · rfl
  · simp

theorem getCell_setCellF_ne (cells : List Cell) (id : Nat) (f : Cell → Cell)
    (j : Nat) (h : j ≠ id) :
    getCell (setCellF cells id f) j = getCell cells j := by
  unfold setCellF
  split
  · rfl
  · next hid =>
      unfold getCell
      split
      · rfl
      · next hj =>
          simp only [List.getD_eq_getElem?_getD]
          rw [List.getElem?_set_ne (by omega : id - 1 ≠ j - 1)]

theorem getCell_setCellF_same (cells : List Cell) (id : Nat) (f : Cell → Cell)
    (h : validId cells id) :
    getCell (setCellF cells id f) id = f (getCell cells id) := by
  obtain ⟨h1, h2⟩ := h
  unfold setCellF
  rw [if_neg (by omega : ¬ id = 0)]
  unfold getCell
  rw [if_neg (by omega : ¬ id = 0)]
  rw [List.getD_eq_getElem?_getD,
    List.getElem?_set_self (by omega : id - 1 < cells.length)]
  rfl

theorem getCell_setPrev_ne (cells : List Cell) (id : Nat) (v : Option Nat)
    (j : Nat) (h : j ≠ id) :
    getCell (setPrevC cells id v) j = getCell cells j :=
  getCell_setCellF_ne cells id _ j h

theorem getCell_setPrev_same (cells : List Cell) (id : Nat) (v : Option Nat)
    (h : validId cells id) :
    getCell (setPrevC cells id v) id = { getCell cells id with prev := v } :=
  getCell_setCellF_same cells id _ h

theorem getCell_setNext_ne (cells : List Cell) (id : Nat) (v : Option Nat)
    (j : Nat) (h : j ≠ id) :
    getCell (setNextC cells id v) j = getCell cells j :=
  getCell_setCellF_ne cells id _ j h

theorem getCell_setNext_same (cells : List Cell) (id : Nat) (v : Option Nat)
    (h : validId cells id) :
    getCell (setNextC cells id v) id = { getCell cells id with next := v } :=
  getCell_setCellF_same cells id _ h

theorem length_setPrev (cells : List Cell) (id : Nat) (v : Option Nat) :
    (setPrevC cells id v).length = cells.length :=
  length_setCellF cells id _

theorem length_setNext (cells : List Cell) (id : Nat) (v : Option Nat) :
    (setNextC cells id v).length = cells.length :=
  length_setCellF cells id _

theorem validId_of_length_eq {cells cells' : List Cell}
    (hlen : cells'.length = cells.length) (j : Nat) (h : validId cells j) :
    validId cells' j := by
  obtain ⟨h1, h2⟩ := h
  exact ⟨h1, by omega⟩

theorem swap_cells_length (root : Option Nat) (cells : List Cell) (a : Nat) :
    (LL.swap ⟨root, cells⟩ a).cells.length = cells.length := by
  unfold LL.swap
  dsimp only
  cases (getCell cells a).next with
  | none => rfl
  | some b =>
      dsimp only
      cases (getCell cells a).prev <;> cases (getCell cells b).next <;>
        simp [setNextOpt, setPrevOpt, length_setPrev, length_setNext]

theorem swap_root (root : Option Nat) (cells : List Cell) (a b : Nat)
    (hnext : (getCell cells a).next = some b) :
    (LL.swap ⟨root, cells⟩ a).root =
      match (getCell cells a).prev with
      | some _ => root
      | none => some b := by
  unfold LL.swap
  dsimp only
  rw [hnext]

theorem length_setNextOpt (cells : List Cell) (t v : Option Nat) :
    (setNextOpt cells t v).length = cells.length := by
  cases t <;> simp [setNextOpt, length_setNext]

theorem length_setPrevOpt (cells : List Cell) (t v : Option Nat) :
    (setPrevOpt cells t v).length = cells.length := by
  cases t <;> simp [setPrevOpt, length_setPrev]

theorem getCell_setNextOpt (cells : List Cell) (t : Option Nat)
    (v : Option Nat) (j : Nat) (hv : t = some j → validId cells j) :
    getCell (setNextOpt cells t v) j =
      if t = some j then { getCell cells j with next := v }
      else getCell cells j := by
  cases t with
  | none => simp [setNextOpt]
  | some p =>
      by_cases hpj : p = j
      · subst hpj
        rw [if_pos rfl]
        exact getCell_setNext_same _ _ _ (hv rfl)
      · rw [if_neg (by simpa using hpj)]
        exact getCell_setNext_ne _ _ _ _ (Ne.symm hpj)

theorem getCell_setPrevOpt (cells : List Cell) (t : Option Nat)
    (v : Option Nat) (j : Nat) (hv : t = some j → validId cells j) :
    getCell (setPrevOpt cells t v) j =
      if t = some j then { getCell cells j with prev := v }
      else getCell cells j := by
  cases t with
  | none => simp [setPrevOpt]
  | some p =>
      by_cases hpj : p = j
      · subst hpj
        rw [if_pos rfl]
        exact getCell_setPrev_same _ _ _ (hv rfl)
      · rw [if_neg (by simpa using hpj)]
        exact getCell_setPrev_ne _ _ _ _ (Ne.symm hpj)

/-- Pointwise description of the cell updates performed by
`LinkedList::swap` on a node `a` with successor `b`, assuming the immediate
neighborhood is non-degenerate (no link of `a`/`b` points back into
`{a, b}`), as holds in every well-formed list. -/
theorem swap_getCell (root : Option Nat) (cells : List Cell) (a b : Nat)
    (hnext : (getCell cells a).next = some b)
    (ha : validId cells a) (hb : validId cells b) (hab : a ≠ b)
    (hpv : ∀ p, (getCell cells a).prev = some p → validId cells p)
    (hnv : ∀ nn, (getCell cells b).next = some nn → validId cells nn)
    (hpa : (getCell cells a).prev ≠ some a)
    (hpb : (getCell cells a).prev ≠ some b)
    (hna : (getCell cells b).next ≠ some a)
    (hnb : (getCell cells b).next ≠ some b)
    (j : Nat) :
    getCell (LL.swap ⟨root, cells⟩ a).cells j =
      if j = a then
        { getCell cells a with prev := some b, next := (getCell cells b).next }
      else if j = b then
        { getCell cells b with prev := (getCell cells a).prev, next := some a }
      else
        { getCell cells j with
          next := if (getCell cells a).prev = some j then some b
                  else (getCell cells j).next
          prev := if (getCell cells b).next = some j then some a
                  else (getCell cells j).prev } := by
  unfold LL.swap
  dsimp only
  rw [hnext]
  dsimp only
  set C1 := setNextOpt cells (getCell cells a).prev (some b) with hC1def
  set C2 := setPrevOpt C1 (getCell cells b).next (some a) with hC2def
  set C3 := setNextC C2 a (getCell cells b).next with hC3def
  set C4 := setPrevC C3 a (some b) with hC4def
  set C5 := setPrevC C4 b (getCell cells a).prev with hC5def
  have hl1 : C1.length = cells.length := by
    rw [hC1def]
    exact length_setNextOpt _ _ _
  have hl2 : C2.length = cells.length := by
    rw [hC2def, length_setPrevOpt, hl1]
  have hl3 : C3.length = cells.length := by
    rw [hC3def, length_setNext, hl2]
  have hl4 : C4.length = cells.length := by
    rw [hC4def, length_setPrev, hl3]
  have hg1 : ∀ k, getCell C1 k =
      if (getCell cells a).prev = some k then
        { getCell cells k with next := some b }
      else getCell cells k := by
    intro k
    rw [hC1def]
    exact getCell_setNextOpt _ _ _ _ (fun h => hpv k h)
  have hg2 : ∀ k, getCell C2 k =
      if (getCell cells b).next = some k then
        { getCell C1 k with prev := some a }
      else getCell C1 k := by
    intro k
    rw [hC2def]
    exact getCell_setPrevOpt _ _ _ _
      (fun h => validId_of_length_eq hl1 k (hnv k h))
  by_cases hja : j = a
  · rw [hja, if_pos rfl, getCell_setNext_ne _ _ _ _ hab, hC5def,
      getCell_setPrev_ne _ _ _ _ hab, hC4def,
      getCell_setPrev_same _ _ _ (validId_of_length_eq hl3 a ha), hC3def,
      getCell_setNext_same _ _ _ (validId_of_length_eq hl2 a ha),
      hg2 a, if_neg hna, hg1 a, if_neg hpa]
  · rw [if_neg hja]
    by_cases hjb : j = b
    · rw [hjb, if_pos rfl,
        getCell_setNext_same _ _ _ (validId_of_length_eq
          (by rw [hC5def, length_setPrev, hl4]) b hb), hC5def,
        getCell_setPrev_same _ _ _ (validId_of_length_eq hl4 b hb), hC4def,
        getCell_setPrev_ne _ _ _ _ (Ne.symm hab), hC3def,
        getCell_setNext_ne _ _ _ _ (Ne.symm hab),
        hg2 b, if_neg hnb, hg1 b, if_neg hpb]
    · rw [if_neg hjb, getCell_setNext_ne _ _ _ _ hjb, hC5def,
        getCell_setPrev_ne _ _ _ _ hjb, hC4def,
        getCell_setPrev_ne _ _ _ _ hja, hC3def,
        getCell_setNext_ne _ _ _ _ hja,
        hg2 j, hg1 j]
      by_cases hjp : (getCell cells a).prev = some j <;>
        by_cases hjn : (getCell cells b).next = some j <;>
          simp [hjp, hjn]

theorem wfChain_congr (cells cells' : List Cell)
    (hlen : cells'.length = cells.length) (l : List Nat) :
    ∀ pr : Option Nat, (∀ x ∈ l, getCell cells' x = getCell cells x) →
      wfChain cells pr l → wfChain cells' pr l := by
  induction l with
  | nil => intro pr _ _; trivial
  | cons x rest ih =>
      intro pr hagree h
      obtain ⟨hv, hp, hn, htail⟩ := h
      refine ⟨validId_of_length_eq hlen x hv, ?_, ?_, ?_⟩
      · rw [hagree x (List.mem_cons_self _ _)]
        exact hp
      · rw [hagree x (List.mem_cons_self _ _)]
        exact hn
      · exact ih (some x) (fun y hy => hagree y (List.mem_cons_of_mem _ hy))
          htail

theorem wfChain_mem_valid (cells : List Cell) (l : List Nat) :
    ∀ pr : Option Nat, wfChain cells pr l → ∀ x ∈ l, validId cells x := by
  induction l with
  | nil => intro pr _ x hx; simp at hx
  | cons y rest ih =>
      intro pr h x hx
      obtain ⟨hv, -, -, htail⟩ := h
      rcases List.mem_cons.mp hx with rfl | hx'
      · exact hv
      · exact ih (some y) htail x hx'

theorem wfChain_split (cells : List Cell) (l₁ : List Nat) :
    ∀ (pr : Option Nat) (x : Nat) (l₂ : List Nat),
      wfChain cells pr (l₁ ++ x :: l₂) →
      validId cells x ∧ (getCell cells x).prev = lastOr l₁ pr ∧
        (getCell cells x).next = l₂.head? := by
  induction l₁ with
  | nil =>
      intro pr x l₂ h
      obtain ⟨hv, hp, hn, -⟩ := h
      exact ⟨hv, hp, hn⟩
  | cons y l₁' ih =>
      intro pr x l₂ h
      obtain ⟨-, -, -, htail⟩ := h
      exact ih (some y) x l₂ htail

theorem lastOr_mem (l : List Nat) :
    ∀ (pr : Option Nat) (p : Nat), l ≠ [] → lastOr l pr = some p → p ∈ l := by
  induction l with
  | nil => intro pr p h; exact absurd rfl h
  | cons x rest ih =>
      intro pr p _ h
      cases hr : rest with
      | nil =>
          subst hr
          obtain rfl : x = p := by simpa [lastOr] using h
          exact List.mem_cons_self _ _
      | cons z zs =>
          subst hr
          have := ih (some x) p (by simp) h
          exact List.mem_cons_of_mem _ this

theorem lastOr_cases (l : List Nat) :
    ∀ (pr : Option Nat) (p : Nat), lastOr l pr = some p →
      p ∈ l ∨ pr = some p := by
  intro pr p h
  cases l with
  | nil => exact Or.inr h
  | cons x rest => exact Or.inl (lastOr_mem _ _ _ (by simp) h)

/-- Transporting a well-formed chain across the pointwise cell updates of a
successor swap: the sequence `xs ++ [a, b] ++ ys` becomes
`xs ++ [b, a] ++ ys`. -/
theorem swap_wfChain_aux (cells cells' : List Cell) (a b : Nat)
    (ys : List Nat) (hlen : cells'.length = cells.length)
    (hgc : ∀ j, getCell cells' j =
      if j = a then
        { getCell cells a with prev := some b, next := (getCell cells b).next }
      else if j = b then
        { getCell cells b with prev := (getCell cells a).prev, next := some a }
      else
        { getCell cells j with
          next := if (getCell cells a).prev = some j then some b
                  else (getCell cells j).next
          prev := if (getCell cells b).next = some j then some a
                  else (getCell cells j).prev }) :
    ∀ (xs : List Nat) (pr : Option Nat),
      (xs ++ a :: b :: ys).Nodup →
      (∀ p, pr = some p → p ∉ xs ++ a :: b :: ys) →
      wfChain cells pr (xs ++ a :: b :: ys) →
      wfChain cells' pr (xs ++ b :: a :: ys) := by
  intro xs
  induction xs with
  | nil =>
      intro pr hnd hpr h
      obtain ⟨hva, hpa', hna', hvb, hpb', hnb', hys⟩ :
          _ ∧ _ ∧ _ ∧ _ ∧ _ ∧ _ ∧ _ := h
      have hnd0 : (a :: b :: ys).Nodup := hnd
      obtain ⟨hanotin, hnd2⟩ := List.nodup_cons.mp hnd0
      obtain ⟨hbnotin, hndys⟩ := List.nodup_cons.mp hnd2
      have hab : a ≠ b := fun hc => hanotin (hc ▸ List.mem_cons_self _ _)
      have hga := hgc a
      rw [if_pos rfl] at hga
      have hgb := hgc b
      rw [if_neg (Ne.symm hab), if_pos rfl] at hgb
      refine ⟨validId_of_length_eq hlen b hvb, ?_, ?_,
        validId_of_length_eq hlen a hva, ?_, ?_, ?_⟩
      · rw [hgb]
        exact hpa'
      · rw [hgb]
        rfl
      · rw [hga]
      · rw [hga]
        exact hnb'
      · cases ys with
        | nil => trivial
        | cons nn ys' =>
            obtain ⟨hvnn, hpnn, hnnn, hys'⟩ : _ ∧ _ ∧ _ ∧ _ := hys
            obtain ⟨hnnnotin, hndys'⟩ := List.nodup_cons.mp hndys
            have hnna : nn ≠ a := fun hc =>
              hanotin (by rw [← hc]; simp)
            have hnnb : nn ≠ b := fun hc =>
              hbnotin (by rw [← hc]; simp)
            have hprnn : pr ≠ some nn := fun hc =>
              hpr nn hc (by simp)
            have hgnn := hgc nn
            rw [if_neg hnna, if_neg hnnb, hpa', if_neg hprnn, hnb'] at hgnn
            simp only [List.head?_cons] at hgnn
            rw [if_pos trivial] at hgnn
            refine ⟨validId_of_length_eq hlen nn hvnn, ?_, ?_, ?_⟩
            · rw [hgnn]
            · rw [hgnn]
              exact hnnn
            · refine wfChain_congr cells cells' hlen ys' (some nn) ?_ hys'
              intro y hy
              have hya : y ≠ a := fun hc =>
                hanotin (by rw [← hc]; simp [hy])
              have hyb : y ≠ b := fun hc =>
                hbnotin (by rw [← hc]; simp [hy])
              have hpry : pr ≠ some y := fun hc =>
                hpr y hc (by simp [hy])
              have hnny : nn ≠ y := fun hc => hnnnotin (hc ▸ hy)
              rw [hgc y, if_neg hya, if_neg hyb, hpa', if_neg hpry, hnb',
                if_neg (by simpa using hnny)]
  | cons x xs' ih =>
      intro pr hnd hpr h
      obtain ⟨hvx, hpx, hnx, htail⟩ : _ ∧ _ ∧ _ ∧ _ := h
      obtain ⟨hxnotin, hndtail⟩ := List.nodup_cons.mp hnd
      have hxa : x ≠ a := fun hc => hxnotin (by rw [hc]; simp)
      have hxb : x ≠ b := fun hc => hxnotin (by rw [hc]; simp)
      have htail' : wfChain cells (some x) ((xs' ++ [a]) ++ b :: ys) := by
        rw [List.append_assoc, List.singleton_append]
        exact htail
      have hsb := wfChain_split cells (xs' ++ [a]) (some x) b ys htail'
      have hsa := wfChain_split cells xs' (some x) a (b :: ys) htail
      have hbx : (getCell cells b).next ≠ some x := by
        rw [hsb.2.2]
        cases ys with
        | nil => simp
        | cons nn ys' =>
            intro hc
            obtain rfl : nn = x := by simpa using hc
            exact hxnotin (by simp)
      refine ⟨validId_of_length_eq hlen x hvx, ?_, ?_, ?_⟩
      · rw [hgc x, if_neg hxa, if_neg hxb]
        dsimp only
        rw [if_neg hbx]
        exact hpx
      · rw [hgc x, if_neg hxa, if_neg hxb]
        dsimp only
        cases hxs' : xs' with
        | nil =>
            subst hxs'
            rw [hsa.2.1]
            simp [lastOr]
        | cons x' xs'' =>
            subst hxs'
            have hax : (getCell cells a).prev ≠ some x := by
              intro hc
              rw [hsa.2.1] at hc
              have hmem := lastOr_mem (x' :: xs'') (some x) x (by simp) hc
              exact hxnotin (List.mem_append_left _ hmem)
            rw [if_neg hax, hnx]
            simp
      · exact ih (some x) hndtail
          (fun p hp => by
            obtain rfl : x = p := by simpa using hp
            exact hxnotin) htail

theorem lastOr_some (l : List Nat) :
    ∀ q : Nat, ∃ p, lastOr l (some q) = some p := by
  induction l with
  | nil => intro q; exact ⟨q, rfl⟩
  | cons x rest ih => intro q; exact ih x

/-- Swapping a node with its successor in a represented list exchanges
exactly those two adjacent elements: the member sequence `xs ++ [a, b] ++ ys`
becomes `xs ++ [b, a] ++ ys`, every other element keeping its position. -/
theorem swap_representsLL (rt : Option Nat) (cls : List Cell)
    (xs : List Nat) (a b : Nat) (ys : List Nat)
    (hrep : representsLL ⟨rt, cls⟩ (xs ++ a :: b :: ys)) :
    representsLL (LL.swap ⟨rt, cls⟩ a) (xs ++ b :: a :: ys) := by
  obtain ⟨hroot0, hnd, hchain0⟩ := hrep
  have hroot : rt = (xs ++ a :: b :: ys).head? := hroot0
  have hchain : wfChain cls none (xs ++ a :: b :: ys) := hchain0
  have hsa := wfChain_split cls xs none a (b :: ys) hchain
  have hnext : (getCell cls a).next = some b := by
    rw [hsa.2.2]
    rfl
  have hchain' : wfChain cls none ((xs ++ [a]) ++ b :: ys) := by
    rw [List.append_assoc, List.singleton_append]
    exact hchain
  have hsb := wfChain_split cls (xs ++ [a]) none b ys hchain'
  obtain ⟨hndxs, hnd2, hdisj⟩ := List.nodup_append.mp hnd
  obtain ⟨hanotin, hnd3⟩ := List.nodup_cons.mp hnd2
  obtain ⟨hbnotin, hndys⟩ := List.nodup_cons.mp hnd3
  have hab : a ≠ b := fun hc => hanotin (hc ▸ List.mem_cons_self _ _)
  have hanotxs : a ∉ xs := fun hc => hdisj hc (by simp)
  have hbnotxs : b ∉ xs := fun hc => hdisj hc (by simp)
  have hpv : ∀ p, (getCell cls a).prev = some p → validId cls p := by
    intro p hp
    rw [hsa.2.1] at hp
    rcases lastOr_cases xs none p hp with h | h
    · exact wfChain_mem_valid cls _ none hchain p (List.mem_append_left _ h)
    · simp at h
  have hnv : ∀ nn, (getCell cls b).next = some nn → validId cls nn := by
    intro nn hp
    rw [hsb.2.2] at hp
    cases ys with
    | nil => simp at hp
    | cons z zs =>
        have hzn : z = nn := by simpa using hp
        exact wfChain_mem_valid cls _ none hchain nn
          (List.mem_append_right _ (by simp [← hzn]))
  have hpa : (getCell cls a).prev ≠ some a := by
    intro hc
    rw [hsa.2.1] at hc
    rcases lastOr_cases xs none a hc with h | h
    · exact hanotxs h
    · simp at h
  have hpb : (getCell cls a).prev ≠ some b := by
    intro hc
    rw [hsa.2.1] at hc
    rcases lastOr_cases xs none b hc with h | h
    · exact hbnotxs h
    · simp at h
  have hna : (getCell cls b).next ≠ some a := by
    rw [hsb.2.2]
    cases ys with
    | nil => simp
    | cons z zs =>
        intro hc
        obtain rfl : z = a := by simpa using hc
        exact hanotin (by simp)
  have hnb : (getCell cls b).next ≠ some b := by
    rw [hsb.2.2]
    cases ys with
    | nil => simp
    | cons z zs =>
        intro hc
        obtain rfl : z = b := by simpa using hc
        exact hbnotin (by simp)
  have hlen := swap_cells_length rt cls a
  have hgc := swap_getCell rt cls a b hnext hsa.1 hsb.1 hab hpv hnv hpa hpb
    hna hnb
  refine ⟨?_, ?_, ?_⟩
  · rw [swap_root rt cls a b hnext, hsa.2.1]
    cases xs with
    | nil => simp [lastOr]
    | cons x xs' =>
        obtain ⟨p, hp⟩ := lastOr_some xs' x
        dsimp only [lastOr]
        rw [hp, hroot]
        simp
  · exact ((List.Perm.append_left xs (List.Perm.swap b a ys)).nodup_iff).mp hnd
  · exact swap_wfChain_aux cls (LL.swap ⟨rt, cls⟩ a).cells a b ys hlen hgc
      xs none hnd (fun p hp => by simp at hp) hchain

/-- C8 counterexample: the claim's second half fails. On the two-element
list `[1, 2]` (a well-formed represented list whose node 1 has successor 2),
calling `swap(1)` twice does NOT restore the prior order: the first swap
yields `[2, 1]`, after which node 1 has no successor, so the second
`swap(1)` is the no-successor no-op and the list stays `[2, 1]`. -/
theorem c8_counterexample :
    representsLL ⟨some 1, [⟨none, some 2, none⟩, ⟨some 1, none, none⟩]⟩
        [1, 2] ∧
      (getCell [⟨none, some 2, none⟩, ⟨some 1, none, none⟩] 1).next =
        some 2 ∧
      LL.swap (LL.swap ⟨some 1,
          [⟨none, some 2, none⟩, ⟨some 1, none, none⟩]⟩ 1) 1 ≠
        ⟨some 1, [⟨none, some 2, none⟩, ⟨some 1, none, none⟩]⟩ ∧
      representsLL (LL.swap (LL.swap ⟨some 1,
          [⟨none, some 2, none⟩, ⟨some 1, none, none⟩]⟩ 1) 1) [2, 1] := by
  decide

/-- C8 (amended): in a well-formed (represented) list, `LinkedList::swap`
on a node `a` whose successor is `b` exchanges exactly those two adjacent
elements, every other element keeping its position; the prior order is
restored by a second swap applied to the former successor `b` (now the
predecessor), not by repeating `swap` on `a` itself. -/
theorem c8_amended_swap_exchanges_two (rt : Option Nat) (cls : List Cell)
    (xs : List Nat) (a b : Nat) (ys : List Nat)
    (hrep : representsLL ⟨rt, cls⟩ (xs ++ a :: b :: ys)) :
    representsLL (LL.swap ⟨rt, cls⟩ a) (xs ++ b :: a :: ys) ∧
      representsLL (LL.swap (LL.swap ⟨rt, cls⟩ a) b) (xs ++ a :: b :: ys) := by
  have h1 := swap_representsLL rt cls xs a b ys hrep
  have h2 := swap_representsLL (LL.swap ⟨rt, cls⟩ a).root
    (LL.swap ⟨rt, cls⟩ a).cells xs b a ys h1
  exact ⟨h1, h2⟩

/-- The amended C8 applied at the concrete three-element list `[1, 2, 3]`:
`swap(1)` yields `[2, 1, 3]` and the follow-up `swap(2)` restores
`[1, 2, 3]`. -/
theorem c8_witness :
    representsLL (LL.swap ⟨some 1, [⟨none, some 2, none⟩,
        ⟨some 1, some 3, none⟩, ⟨some 2, none, none⟩]⟩ 1) [2, 1, 3] ∧
      representsLL (LL.swap (LL.swap ⟨some 1, [⟨none, some 2, none⟩,
        ⟨some 1, some 3, none⟩, ⟨some 2, none, none⟩]⟩ 1) 2) [1, 2, 3] :=
  c8_amended_swap_exchanges_two (some 1) [⟨none, some 2, none⟩,
    ⟨some 1, some 3, none⟩, ⟨some 2, none, none⟩] [] 1 2 [3] (by decide)
